import Mathlib

/-!
# A shallow embedding of the sbrk-based allocator in `src/main.c`

The allocator keeps a singly linked list of in-band block headers
(`size`, `is_free`, `next`) with global `head` and `tail` pointers, and moves
the process break with `sbrk`.

Modelling choices:

* addresses and `size_t` values are natural numbers; `size_t` arithmetic is
  reduced modulo `2 ^ 64` where the source computes in `size_t`; pointer
  arithmetic on headers (`header + 1`, `(header_t *)block - 1`) is plain
  addition and truncated subtraction on addresses, and the pointer
  `(char *)block + size` that `free` compares with the break is taken modulo
  `2 ^ 64`;
* the null pointer is address `0`;
* memory is a map from header addresses to header records; the `unsigned`
  flag `is_free`, which the source only ever sets to 0 or 1, is a `Bool`;
* `sbrk` is the operating system's: it is modelled with a lower and an upper
  bound for the break, and reads its argument as a signed 64-bit increment,
  which is what `free` relies on when it passes `0 - sizeof(header_t) - size`;
* the two loops (`get_free_block`, the unlink loop of `free`) take a fuel
  argument and return `none` when it runs out, so that non-termination on a
  cyclic list is visible;
* the mutex calls do not touch the heap and are not part of the state; they
  appear as events in the traces `malloc_events` and `free_events`, which list
  what each path of a call does in source order.
-/

namespace MemAlloc

/-- The fields of `union header` (`s.size`, `s.is_free`, `s.next`). -/
structure header_t where
  size : Nat
  is_free : Bool
  next : Nat
deriving DecidableEq, Repr

/-- The value of `sizeof(header_t)` under LP64: the struct member occupies
8 (size) + 4 (is_free) + 4 (padding) + 8 (next) = 24 bytes with alignment 8;
the `ALIGN stub` member is `char[16]` with alignment 1; the union is as large
as its largest member, rounded to its alignment. -/
@[reducible] def sizeof_header_t : Nat := 24

/-- The return value `(void *)-1` of a failed `sbrk`. -/
@[reducible] def SBRK_FAILED : Nat := 2 ^ 64 - 1

/-- The allocator state: header memory, the globals `head` and `tail`, the
current process break, and the bounds `lo`, `hi` between which the operating
system lets the break move. -/
structure State where
  mem : Nat → header_t
  head : Nat
  tail : Nat
  brk : Nat
  lo : Nat
  hi : Nat

/-- Writing one header record. -/
def store (mem : Nat → header_t) (a : Nat) (h : header_t) : Nat → header_t :=
  fun x => if x = a then h else mem x

/-- The library call `sbrk(increment)`; `increment` is the 64-bit pattern the
caller passes, read as a signed `intptr_t`: patterns below `2 ^ 63` raise the
break, the others lower it by `2 ^ 64 - increment`.  On success the old break
is returned; when the new break would leave `[lo, hi]` the call returns
`(void *)-1` and changes nothing.  `sbrk(0)` only queries. -/
def sbrk (s : State) (increment : Nat) : Nat × State :=
  if increment = 0 then (s.brk, s)
  else if increment < 2 ^ 63 then
    if s.brk + increment ≤ s.hi then (s.brk, { s with brk := s.brk + increment })
    else (SBRK_FAILED, s)
  else
    if s.lo + (2 ^ 64 - increment) ≤ s.brk then
      (s.brk, { s with brk := s.brk - (2 ^ 64 - increment) })
    else (SBRK_FAILED, s)

/-- The loop of `get_free_block`, started at `curr`. -/
def get_free_block_loop (mem : Nat → header_t) (size : Nat) : Nat → Nat → Option Nat
  | 0, _ => none
  | fuel + 1, curr =>
    if curr = 0 then some 0
    else if (mem curr).is_free && decide (size ≤ (mem curr).size) then some curr
    else get_free_block_loop mem size fuel (mem curr).next

/-- The function `get_free_block(size)`: first-fit scan from `head`. -/
def get_free_block (fuel : Nat) (s : State) (size : Nat) : Option Nat :=
  get_free_block_loop s.mem size fuel s.head

/-- The function `malloc(size)`; the result is the returned pointer and the
state after the call. -/
def malloc (fuel : Nat) (s : State) (size : Nat) : Option (Nat × State) :=
  if size = 0 then some (0, s)
  else
    match get_free_block fuel s size with
    | none => none
    | some header =>
      if header ≠ 0 then
        some (header + sizeof_header_t,
          { s with mem := store s.mem header { s.mem header with size := size } })
      else
        let total_size := (sizeof_header_t + size) % 2 ^ 64
        let r := sbrk s total_size
        let block := r.1
        let s1 := r.2
        if block = SBRK_FAILED then some (0, s1)
        else
          let header := block
          let mem1 := store s1.mem header { size := size, is_free := false, next := 0 }
          let head1 := if s1.head = 0 then header else s1.head
          let mem2 :=
            if s1.tail ≠ 0 then store mem1 s1.tail { mem1 s1.tail with next := header }
            else mem1
          some (header + sizeof_header_t,
            { s1 with mem := mem2, head := head1, tail := header })

/-- The `while (tmp)` loop of `free` that moves `tail` one header back. -/
def unlink_loop : Nat → State → Nat → Option State
  | 0, _, _ => none
  | fuel + 1, s, tmp =>
    if tmp = 0 then some s
    else
      let s1 :=
        if (s.mem tmp).next = s.tail then
          { s with mem := store s.mem tmp { s.mem tmp with next := 0 }, tail := tmp }
        else s
      unlink_loop fuel s1 (s1.mem tmp).next

/-- The `size_t` expression `0 - sizeof(header_t) - size`. -/
def neg_total (size : Nat) : Nat :=
  (2 ^ 64 + 2 ^ 64 - sizeof_header_t - size % 2 ^ 64) % 2 ^ 64

/-- The function `free(block)`.  The test of line 86 compares the pointer
`(char *)block + header->s.size`, a 64-bit value, with the break: the sum is
taken modulo `2 ^ 64`. -/
def free (fuel : Nat) (s : State) (block : Nat) : Option State :=
  if block = 0 then some s
  else
    let header := block - sizeof_header_t
    let programbreak := (sbrk s 0).1
    if (block + (s.mem header).size) % 2 ^ 64 = programbreak then
      let unlinked :=
        if s.head = s.tail then some { s with head := 0, tail := 0 }
        else unlink_loop fuel s s.head
      match unlinked with
      | none => none
      | some s1 => some (sbrk s1 (neg_total (s1.mem header).size)).2
    else
      some { s with mem := store s.mem header { s.mem header with is_free := true } }

/-- The empty heap: no header yet, the break at `B`, the break free to move
inside `[B, hi]`.  Memory holds whatever it holds (`mem`). -/
def empty_heap (mem : Nat → header_t) (B hi : Nat) : State :=
  { mem := mem, head := 0, tail := 0, brk := B, lo := B, hi := hi }

/-- Memory in which every header field is zero (used for concrete runs). -/
def zero_mem : Nat → header_t := fun _ => { size := 0, is_free := false, next := 0 }

/-- The test of the first-fit scan: `curr->s.is_free && curr->s.size >= size`. -/
def fits (mem : Nat → header_t) (size : Nat) (a : Nat) : Bool :=
  (mem a).is_free && decide (size ≤ (mem a).size)

/-- Following `next` from `p` visits exactly the headers `l`, none of them
null, and then reaches the null pointer: the list is finite and acyclic. -/
def IsList (mem : Nat → header_t) : Nat → List Nat → Prop
  | p, [] => p = 0
  | p, a :: l => p = a ∧ a ≠ 0 ∧ IsList mem (mem a).next l

/-- Every block (header and recorded payload) ends at or before the next
header of the list, and the last block ends at or before the break. -/
def Laid (mem : Nat → header_t) (brk : Nat) : List Nat → Prop
  | [] => True
  | a :: l => a + sizeof_header_t + (mem a).size ≤ l.head?.getD brk ∧ Laid mem brk l

/-- The structural invariant of the allocator, for the header list `l`. -/
structure Inv (s : State) (l : List Nat) : Prop where
  list : IsList s.mem s.head l
  tail_last : s.tail = l.getLast?.getD 0
  laid : Laid s.mem s.brk l
  above : ∀ a ∈ l, s.lo ≤ a
  small : ∀ a ∈ l, sizeof_header_t + (s.mem a).size < 2 ^ 63
  lo_pos : 0 < s.lo
  lo_brk : s.lo ≤ s.brk
  brk_hi : s.brk ≤ s.hi
  hi_lt : s.hi < 2 ^ 64 - 1

/-- States reachable from an empty heap by valid calls, together with the
pointers that are live (returned by `malloc` and not passed to `free` since).
A call of `malloc` is valid when header size plus request fits a positive
`intptr_t`; a call of `free` is valid on null or on a live pointer. -/
inductive Reachable : State → List Nat → Prop
  | init (mem : Nat → header_t) (B hi : Nat) :
      0 < B → B ≤ hi → hi < 2 ^ 64 - 1 → Reachable (empty_heap mem B hi) []
  | alloc {s : State} {live : List Nat} (fuel n p : Nat) (s1 : State) :
      Reachable s live → sizeof_header_t + n < 2 ^ 63 →
      malloc fuel s n = some (p, s1) →
      Reachable s1 (if p = 0 then live else p :: live)
  | dealloc {s : State} {live : List Nat} (fuel p : Nat) (s1 : State) :
      Reachable s live → (p = 0 ∨ p ∈ live) →
      free fuel s p = some s1 →
      Reachable s1 (live.filter (fun q => decide (q ≠ p)))

/-- A run of `malloc` calls with the given sizes and nothing in between; the
result lists the returned pointers in call order. -/
def malloc_seq (fuel : Nat) : State → List Nat → Option (List Nat × State)
  | s, [] => some ([], s)
  | s, n :: ns =>
    match malloc fuel s n with
    | none => none
    | some r =>
      match malloc_seq fuel r.2 ns with
      | none => none
      | some rs => some (r.1 :: rs.1, rs.2)

/-- The header memory after the writes of the growth path of `malloc`
(`header->s.size = size; header->s.is_free = 0; header->s.next = NULL;
if (tail) tail->s.next = header;`) for a new header at `brk`. -/
def grow_mem (mem : Nat → header_t) (brk tail n : Nat) : Nat → header_t :=
  if tail ≠ 0 then
    store (store mem brk { size := n, is_free := false, next := 0 }) tail
      { (store mem brk { size := n, is_free := false, next := 0 }) tail with next := brk }
  else store mem brk { size := n, is_free := false, next := 0 }

/-- The empty heap used in the concrete runs: break at 4096. -/
def heap0 : State := empty_heap zero_mem 4096 (2 ^ 32)

/-- The state after `malloc(16)` on `heap0` (which returns 4120). -/
def heap1 : State :=
  { mem := grow_mem zero_mem 4096 0 16, head := 4096, tail := 4096, brk := 4136,
    lo := 4096, hi := 2 ^ 32 }

/-- The state after `malloc(16); malloc(32)` on `heap0` (the second call
returns 4160). -/
def heap2 : State :=
  { mem := grow_mem heap1.mem 4136 4096 32, head := 4096, tail := 4136, brk := 4192,
    lo := 4096, hi := 2 ^ 32 }

/-- The state after `malloc(16); malloc(32); free(4120)` on `heap0`: the
first block is interior, so it is only flagged free. -/
def heap3 : State :=
  { heap2 with mem := store heap2.mem 4096 { heap2.mem 4096 with is_free := true } }

/-- The state after a further `malloc(8)`, which reuses the first block and
returns 4120 again. -/
def heap4 : State :=
  { heap3 with mem := store heap3.mem 4096 { heap3.mem 4096 with size := 8 } }

/-- A state with one live block of 16 bytes and no room left to grow. -/
def full_heap : State :=
  { mem := store zero_mem 4096 { size := 16, is_free := false, next := 0 },
    head := 4096, tail := 4096, brk := 4136, lo := 4096, hi := 4136 }

/-- A state with a free block of 16 bytes followed by a live block of 32
bytes (the state after `malloc(16)`, `malloc(32)`, `free` of the first). -/
def reuse_heap : State :=
  { mem := store (store zero_mem 4096 { size := 16, is_free := true, next := 4136 })
      4136 { size := 32, is_free := false, next := 0 },
    head := 4096, tail := 4136, brk := 4192, lo := 4096, hi := 2 ^ 32 }

/-- The state after `malloc(16); malloc(32); free(4120); free(4160)` on
`heap0`: the second block was at the heap top and is reclaimed, the first one
stays in the list, flagged free. -/
def heap5 : State :=
  { heap3 with mem := store heap3.mem 4096 { heap3.mem 4096 with next := 0 },
               tail := 4096, brk := 4136 }

/-- The state after a further `malloc(8)`, which reuses the block at 4096 and
records size 8 in it. -/
def heap6 : State :=
  { heap5 with mem := store heap5.mem 4096 { heap5.mem 4096 with size := 8 } }

/-- The header memory with every recorded size replaced by the ghost
capacity `cap` (the size the header was created with). -/
def cap_mem (mem : Nat → header_t) (cap : Nat → Nat) : Nat → header_t :=
  fun a => { mem a with size := cap a }

/-- The states of `Reachable` (same calls, same bound on the requests)
together with the live pointers and a ghost record `cap`: `cap h` is the size
with which the header at address `h` was created,
written when a call of `malloc` takes the growth path and succeeds (the scan
returned null and the result is not null), and left alone by reuse and by
`free`. -/
inductive ReachableCap : State → List Nat → (Nat → Nat) → Prop
  | init (mem : Nat → header_t) (B hi : Nat) :
      0 < B → B ≤ hi → hi < 2 ^ 64 - 1 →
      ReachableCap (empty_heap mem B hi) [] (fun _ => 0)
  | alloc {s : State} {live : List Nat} {cap : Nat → Nat} (fuel n p : Nat) (s1 : State) :
      ReachableCap s live cap → sizeof_header_t + n < 2 ^ 63 →
      malloc fuel s n = some (p, s1) →
      ReachableCap s1 (if p = 0 then live else p :: live)
        (if p ≠ 0 ∧ get_free_block fuel s n = some 0 then
          (fun a => if a = s.brk then n else cap a)
        else cap)
  | dealloc {s : State} {live : List Nat} {cap : Nat → Nat} (fuel p : Nat) (s1 : State) :
      ReachableCap s live cap → (p = 0 ∨ p ∈ live) →
      free fuel s p = some s1 →
      ReachableCap s1 (live.filter (fun q => decide (q ≠ p))) cap

/-- The creation sizes after `malloc(16); malloc(32)` on `heap0`. -/
def cap2 : Nat → Nat := fun a => if a = 4136 then 32 else if a = 4096 then 16 else 0

/-- The steps of a call that matter for the lock: taking and releasing
`global_malloc_lock`, reading or writing the globals `head` and `tail`,
reading or writing a field of a header, and calling `sbrk`. -/
inductive Event where
  | lock
  | unlock
  | read_global
  | write_global
  | read_header
  | write_header
  | sbrk_call
deriving DecidableEq, Repr

/-- The header reads of the loop of `get_free_block` started at `curr`: the
test `curr->s.is_free && curr->s.size >= size`, then `curr->s.next` when the
test fails. -/
def get_free_block_events (mem : Nat → header_t) (size : Nat) :
    Nat → Nat → Option (List Event)
  | 0, _ => none
  | fuel + 1, curr =>
    if curr = 0 then some []
    else if (mem curr).is_free && decide (size ≤ (mem curr).size) then some [Event.read_header]
    else
      (get_free_block_events mem size fuel (mem curr).next).map
        (fun t => Event.read_header :: Event.read_header :: t)

/-- The events of a call `malloc(size)`, in source order, on each of its
paths: early return, reuse, failed growth, successful growth. -/
def malloc_events (fuel : Nat) (s : State) (size : Nat) : Option (List Event) :=
  if size = 0 then some []
  else
    match get_free_block fuel s size, get_free_block_events s.mem size fuel s.head with
    | some header, some scan =>
      if header ≠ 0 then
        some ([Event.lock, Event.read_global] ++ scan ++ [Event.write_header, Event.unlock])
      else
        let r := sbrk s ((sizeof_header_t + size) % 2 ^ 64)
        if r.1 = SBRK_FAILED then
          some ([Event.lock, Event.read_global] ++ scan ++ [Event.sbrk_call, Event.unlock])
        else
          some ([Event.lock, Event.read_global] ++ scan ++
            [Event.sbrk_call, Event.write_header, Event.write_header, Event.write_header,
              Event.read_global] ++
            (if r.2.head = 0 then [Event.write_global] else []) ++
            [Event.read_global] ++
            (if r.2.tail ≠ 0 then [Event.read_global, Event.write_header] else []) ++
            [Event.write_global, Event.unlock])
    | _, _ => none

/-- The events of the `while (tmp)` loop of `free`: each round reads
`tmp->s.next` and `tail`, writes `tmp->s.next` and `tail` when they match,
and reads `tmp->s.next` again to advance. -/
def unlink_loop_events : Nat → State → Nat → Option (List Event)
  | 0, _, _ => none
  | fuel + 1, s, tmp =>
    if tmp = 0 then some []
    else
      let s1 :=
        if (s.mem tmp).next = s.tail then
          { s with mem := store s.mem tmp { s.mem tmp with next := 0 }, tail := tmp }
        else s
      (unlink_loop_events fuel s1 (s1.mem tmp).next).map
        (fun t =>
          [Event.read_header, Event.read_global] ++
            (if (s.mem tmp).next = s.tail then [Event.write_header, Event.write_global]
             else []) ++
            [Event.read_header] ++ t)

/-- The events of a call `free(block)`, in source order, on each of its
paths: early return, heap-top reclamation, interior free. -/
def free_events (fuel : Nat) (s : State) (block : Nat) : Option (List Event) :=
  if block = 0 then some []
  else
    let header := block - sizeof_header_t
    if (block + (s.mem header).size) % 2 ^ 64 = (sbrk s 0).1 then
      let unlinking :=
        if s.head = s.tail then
          some [Event.read_global, Event.read_global, Event.write_global, Event.write_global]
        else
          (unlink_loop_events fuel s s.head).map
            (fun t => [Event.read_global, Event.read_global, Event.read_global] ++ t)
      match unlinking with
      | none => none
      | some ev =>
        some ([Event.lock, Event.sbrk_call, Event.read_header] ++ ev ++
          [Event.read_header, Event.sbrk_call, Event.unlock])
    else
      some [Event.lock, Event.sbrk_call, Event.read_header, Event.write_header, Event.unlock]

/-- Replaying a trace against the lock: `held` says whether the lock is held;
the result is the lock state at the end, or `none` when the trace takes a held
lock, releases a lock that is not held, or touches the shared state or calls
`sbrk` while the lock is not held. -/
def guard_run : Bool → List Event → Option Bool
  | held, [] => some held
  | held, Event.lock :: t => if held then none else guard_run true t
  | held, Event.unlock :: t => if held then guard_run false t else none
  | held, _ :: t => if held then guard_run true t else none

/-- An event other than taking or releasing the lock. -/
def is_access : Event → Bool
  | Event.lock => false
  | Event.unlock => false
  | _ => true

/-- The lock discipline of a trace: replayed from a released lock it never
misuses the lock nor touches shared state outside it and ends with the lock
released; it releases as often as it acquires, and at most once. -/
def Disciplined (tr : List Event) : Prop :=
  guard_run false tr = some false ∧ tr.count Event.lock = tr.count Event.unlock ∧
    tr.count Event.lock ≤ 1

/-- Rounding `n` up to a multiple of `a`. -/
def align_up (n a : Nat) : Nat := (n + a - 1) / a * a

/-- The size of a C struct from the (size, alignment) pairs of its members in
declaration order: each member is placed at the next offset that is a
multiple of its alignment, and the total is rounded up to the largest
alignment. -/
def struct_size (members : List (Nat × Nat)) : Nat :=
  align_up (members.foldl (fun off m => align_up off m.2 + m.1) 0)
    (members.foldl (fun a m => max a m.2) 1)

/-- The size of a C union from the (size, alignment) pairs of its members:
the largest member size, rounded up to the largest alignment. -/
def union_size (members : List (Nat × Nat)) : Nat :=
  align_up (members.foldl (fun sz m => max sz m.1) 0)
    (members.foldl (fun a m => max a m.2) 1)

/-- The members of `struct { size_t size; unsigned is_free; union header *next; } s`
under LP64: 8 bytes aligned to 8, 4 bytes aligned to 4, 8 bytes aligned to 8. -/
def header_struct_members : List (Nat × Nat) := [(8, 8), (4, 4), (8, 8)]

/-- The members of `union header`: the struct `s` (alignment 8) and
`ALIGN stub`, a `char[16]` (alignment 1). -/
def header_union_members : List (Nat × Nat) :=
  [(struct_size header_struct_members, 8), (16, 1)]

/-- States reachable from an empty heap by calls that are valid in the sense
of the interface alone: `malloc` with any `size_t` request, `free` on null or
on a live pointer.  No bound keeps header size + request below `2 ^ 63`. -/
inductive ReachableAny : State → List Nat → Prop
  | init (mem : Nat → header_t) (B hi : Nat) :
      0 < B → B ≤ hi → hi < 2 ^ 64 - 1 → ReachableAny (empty_heap mem B hi) []
  | alloc {s : State} {live : List Nat} (fuel n p : Nat) (s1 : State) :
      ReachableAny s live → n < 2 ^ 64 →
      malloc fuel s n = some (p, s1) →
      ReachableAny s1 (if p = 0 then live else p :: live)
  | dealloc {s : State} {live : List Nat} (fuel p : Nat) (s1 : State) :
      ReachableAny s live → (p = 0 ∨ p ∈ live) →
      free fuel s p = some s1 →
      ReachableAny s1 (live.filter (fun q => decide (q ≠ p)))

/-- The state after `malloc(2 ^ 64 - 32)` on `heap6`: header size + request
is `2 ^ 64 - 8`, which `sbrk` reads as `-8`; the break drops from 4136 to 4128
and the new header is written at the old break 4136. -/
def heap7 : State :=
  { mem := grow_mem heap6.mem 4136 4096 (2 ^ 64 - 32), head := 4096, tail := 4136,
    brk := 4128, lo := 4096, hi := 2 ^ 32 }

/-- The state after `free(4120)` on `heap7`: the block of 4120 (recorded size
8) ends at the break 4128, so the reclamation branch runs; it unlinks `tail`,
the header 4136, and lowers the break by 24 + 8. -/
def heap8 : State :=
  { heap7 with mem := store heap7.mem 4096 { heap7.mem 4096 with next := 0 },
               tail := 4096, brk := 4096 }

/-- Measured with the creation sizes `cap`, every block ends exactly where
the next header of the list begins, and the last block exactly at the
break. -/
def Tight (cap : Nat → Nat) (brk : Nat) : List Nat → Prop
  | [] => True
  | a :: l => a + sizeof_header_t + cap a = l.head?.getD brk ∧ Tight cap brk l

/-! ## The first-fit scan -/

theorem get_free_block_loop_isList (mem : Nat → header_t) (size : Nat) :
    ∀ (l : List Nat) (p fuel : Nat), IsList mem p l → l.length < fuel →
      get_free_block_loop mem size fuel p = some ((l.find? (fits mem size)).getD 0)
  | [], p, fuel, h, hf => by
    cases fuel with
    | zero => simp at hf
    | succ k =>
      simp only [IsList] at h
      simp [get_free_block_loop, h]
  | a :: l, p, fuel, h, hf => by
    cases fuel with
    | zero => simp at hf
    | succ k =>
      obtain ⟨rfl, ha, ht⟩ := h
      simp only [get_free_block_loop, if_neg ha, List.find?_cons]
      by_cases hc : fits mem size p = true
      · have hc2 := hc
        simp only [fits] at hc2
        simp [hc, hc2]
      · have hc2 := hc
        simp only [fits] at hc2
        simp only [hc2, hc]
        exact get_free_block_loop_isList mem size l _ k ht (by simpa using hf)

theorem isList_ne_zero {mem : Nat → header_t} :
    ∀ {l : List Nat} {p : Nat}, IsList mem p l → ∀ a ∈ l, a ≠ 0
  | [], _, _, a, ha => by simp at ha
  | b :: l, p, h, a, ha => by
    obtain ⟨_, hb, ht⟩ := h
    rcases List.mem_cons.1 ha with rfl | h2
    · exact hb
    · exact isList_ne_zero ht a h2

theorem find_fits_none {mem : Nat → header_t} {size : Nat} {l : List Nat}
    (h : ∀ a ∈ l, ¬ ((mem a).is_free = true ∧ size ≤ (mem a).size)) :
    l.find? (fits mem size) = none := by
  rw [List.find?_eq_none]
  intro a ha hfit
  apply h a ha
  simpa [fits] using hfit

theorem get_free_block_miss {s : State} {size : Nat} {l : List Nat} {fuel : Nat}
    (hl : IsList s.mem s.head l) (hf : l.length < fuel)
    (h : ∀ a ∈ l, ¬ ((s.mem a).is_free = true ∧ size ≤ (s.mem a).size)) :
    get_free_block fuel s size = some 0 := by
  unfold get_free_block
  rw [get_free_block_loop_isList s.mem size l _ _ hl hf, find_fits_none h]
  rfl

theorem malloc_seq_zeros (fuel : Nat) (s : State) :
    ∀ k : Nat, malloc_seq fuel s (List.replicate k 0) = some (List.replicate k 0, s)
  | 0 => rfl
  | k + 1 => by
    have ih := malloc_seq_zeros fuel s k
    have h0 : malloc fuel s 0 = some (0, s) := by simp [malloc]
    simp only [List.replicate_succ, malloc_seq, h0, ih]

/-- C4: `malloc(0)` returns null and `free(NULL)` returns, each leaving the
whole state (head, tail, every header, the break) as it was; so any number of
`malloc(0)` calls in a row returns only nulls and leaves the state, hence the
break, unchanged. -/
theorem null_and_zero_are_no_ops (fuel : Nat) (s : State) :
    malloc fuel s 0 = some (0, s) ∧ free fuel s 0 = some s ∧
      ∀ k : Nat, malloc_seq fuel s (List.replicate k 0) = some (List.replicate k 0, s) :=
  ⟨by simp [malloc], by simp [free], malloc_seq_zeros fuel s⟩

/-- C5: when no header of the list is free with a large enough size and
`sbrk` denies the growth (failure value, break unchanged), `malloc` of a
positive size returns null and leaves the whole state unchanged. -/
theorem malloc_out_of_memory_atomic (s : State) (size : Nat) (l : List Nat) (fuel : Nat)
    (hsize : 0 < size) (hl : IsList s.mem s.head l) (hf : l.length < fuel)
    (hmiss : ∀ a ∈ l, ¬ ((s.mem a).is_free = true ∧ size ≤ (s.mem a).size))
    (hdeny : sbrk s ((sizeof_header_t + size) % 2 ^ 64) = (SBRK_FAILED, s)) :
    malloc fuel s size = some (0, s) := by
  have hg := get_free_block_miss hl hf hmiss
  have hne : size ≠ 0 := by omega
  simp only [malloc, if_neg hne, hg, hdeny]
  simp

theorem malloc_out_of_memory_atomic_witness :
    malloc 2 full_heap 16 = some (0, full_heap) :=
  malloc_out_of_memory_atomic full_heap 16 [4096] 2 (by decide)
    ⟨rfl, by decide, rfl⟩ (by decide)
    (by
      intro a ha
      have h1 : a = 4096 := by simpa using ha
      subst h1
      decide)
    rfl

/-- C6: on a finite acyclic header list `l` the scan returns (it needs at
most one step per header and one more), the result is null exactly when no
header of `l` is free with `size` at least the request, and a non-null result
is the earliest such header in list order.  The scan is a function of the
state and returns only a pointer: it writes nothing. -/
theorem get_free_block_first_fit (s : State) (size : Nat) (l : List Nat) (fuel : Nat)
    (hl : IsList s.mem s.head l) (hf : l.length < fuel) :
    ∃ h, get_free_block fuel s size = some h ∧
      (h = 0 ↔ ∀ a ∈ l, ¬ ((s.mem a).is_free = true ∧ size ≤ (s.mem a).size)) ∧
      (h ≠ 0 → ∃ pre post, l = pre ++ h :: post ∧
        (s.mem h).is_free = true ∧ size ≤ (s.mem h).size ∧
        ∀ a ∈ pre, ¬ ((s.mem a).is_free = true ∧ size ≤ (s.mem a).size)) := by
  have hrun := get_free_block_loop_isList s.mem size l _ _ hl hf
  cases hfind : l.find? (fits s.mem size) with
  | none =>
    refine ⟨0, ?_, ?_, ?_⟩
    · unfold get_free_block
      rw [hrun, hfind]
      rfl
    · simp only [true_iff]
      intro a ha hfit
      have hn := List.find?_eq_none.1 hfind a ha
      apply hn
      simpa [fits] using hfit
    · intro h
      exact absurd rfl h
  | some b =>
    obtain ⟨hb, pre, post, hsplit, hpre⟩ := List.find?_eq_some.1 hfind
    have hbfit : (s.mem b).is_free = true ∧ size ≤ (s.mem b).size := by
      simpa [fits] using hb
    have hbl : b ∈ l := by
      rw [hsplit]
      simp
    have hb0 : b ≠ 0 := isList_ne_zero hl b hbl
    refine ⟨b, ?_, ?_, ?_⟩
    · unfold get_free_block
      rw [hrun, hfind]
      rfl
    · constructor
      · intro h
        exact absurd h hb0
      · intro h
        exact absurd hbfit (h b hbl)
    · intro _
      refine ⟨pre, post, hsplit, hbfit.1, hbfit.2, ?_⟩
      intro a ha hfit
      have := hpre a ha
      have hfa : fits s.mem size a = true := by simpa [fits] using hfit
      simp [hfa] at this

theorem get_free_block_first_fit_witness :
    ∃ h, get_free_block 3 reuse_heap 8 = some h ∧
      (h = 0 ↔ ∀ a ∈ [4096, 4136],
        ¬ ((reuse_heap.mem a).is_free = true ∧ 8 ≤ (reuse_heap.mem a).size)) ∧
      (h ≠ 0 → ∃ pre post, [4096, 4136] = pre ++ h :: post ∧
        (reuse_heap.mem h).is_free = true ∧ 8 ≤ (reuse_heap.mem h).size ∧
        ∀ a ∈ pre, ¬ ((reuse_heap.mem a).is_free = true ∧ 8 ≤ (reuse_heap.mem a).size)) :=
  get_free_block_first_fit reuse_heap 8 [4096, 4136] 3
    ⟨rfl, by decide, rfl, by decide, rfl⟩ (by decide)

/-! ## Growing the heap -/

theorem sbrk_grow_inv {s : State} {t : Nat} (ht0 : 0 < t) (ht : t < 2 ^ 63)
    (hok : (sbrk s t).1 ≠ SBRK_FAILED) :
    s.brk + t ≤ s.hi ∧ s.brk ≠ SBRK_FAILED ∧ sbrk s t = (s.brk, { s with brk := s.brk + t }) := by
  have h0 : t ≠ 0 := by omega
  unfold sbrk at hok ⊢
  simp only [if_neg h0, if_pos ht] at hok ⊢
  by_cases hr : s.brk + t ≤ s.hi
  · rw [if_pos hr] at hok ⊢
    exact ⟨hr, hok, rfl⟩
  · rw [if_neg hr] at hok
    exact absurd rfl hok

theorem malloc_grow_core {s : State} {n fuel : Nat} (hn : 0 < n)
    (hsmall : sizeof_header_t + n < 2 ^ 63)
    (hmiss : get_free_block fuel s n = some 0)
    (hok : (sbrk s ((sizeof_header_t + n) % 2 ^ 64)).1 ≠ SBRK_FAILED) :
    ∃ s1, malloc fuel s n = some (s.brk + sizeof_header_t, s1) ∧
      s1.brk = s.brk + sizeof_header_t + n ∧ s1.tail = s.brk ∧
      s1.head = (if s.head = 0 then s.brk else s.head) ∧
      s1.lo = s.lo ∧ s1.hi = s.hi ∧ s.brk + sizeof_header_t + n ≤ s.hi ∧
      s1.mem = grow_mem s.mem s.brk s.tail n := by
  have hmod : (sizeof_header_t + n) % 2 ^ 64 = sizeof_header_t + n :=
    Nat.mod_eq_of_lt (by omega)
  rw [hmod] at hok
  obtain ⟨hroom, hbrk, hs⟩ := sbrk_grow_inv (by omega) hsmall hok
  have hne : n ≠ 0 := by omega
  refine ⟨State.mk (grow_mem s.mem s.brk s.tail n)
      (if s.head = 0 then s.brk else s.head) s.brk
      (s.brk + (sizeof_header_t + n)) s.lo s.hi, ?_, ?_⟩
  · simp only [malloc, if_neg hne, hmiss, hmod, hs, if_neg hbrk, grow_mem]
    simp
  · exact ⟨by simp only []; omega, rfl, rfl, rfl, rfl, by omega, rfl⟩

/-! ## Frame lemmas for the list predicates -/

theorem isList_congr {mem mem1 : Nat → header_t} :
    ∀ {l : List Nat} {p : Nat}, (∀ a ∈ l, (mem1 a).next = (mem a).next) →
      IsList mem p l → IsList mem1 p l
  | [], _, _, h => h
  | a :: l, p, hc, h => by
    obtain ⟨hp, ha, ht⟩ := h
    refine ⟨hp, ha, ?_⟩
    rw [hc a (List.mem_cons_self a l)]
    exact isList_congr (fun b hb => hc b (List.mem_cons_of_mem a hb)) ht

theorem laid_mono {mem mem1 : Nat → header_t} {brk brk1 : Nat} (hb : brk ≤ brk1) :
    ∀ {l : List Nat}, (∀ a ∈ l, (mem1 a).size ≤ (mem a).size) →
      Laid mem brk l → Laid mem1 brk1 l
  | [], _, _ => trivial
  | a :: l, hc, h => by
    obtain ⟨h1, h2⟩ := h
    refine ⟨?_, laid_mono hb (fun b hb => hc b (List.mem_cons_of_mem a hb)) h2⟩
    have hs := hc a (List.mem_cons_self a l)
    cases l with
    | nil =>
      simp only [List.head?_nil, Option.getD_none] at h1 ⊢
      omega
    | cons b l =>
      simp only [List.head?_cons, Option.getD_some] at h1 ⊢
      omega

theorem laid_bound {mem : Nat → header_t} {brk : Nat} :
    ∀ {l : List Nat} {a : Nat}, Laid mem brk (a :: l) →
      (∀ c ∈ l, a + sizeof_header_t + (mem a).size ≤ c) ∧
        a + sizeof_header_t + (mem a).size ≤ brk
  | [], a, h => by
    obtain ⟨h1, _⟩ := h
    simp only [List.head?_nil, Option.getD_none] at h1
    exact ⟨by simp, h1⟩
  | b :: l, a, h => by
    obtain ⟨h1, h2⟩ := h
    simp only [List.head?_cons, Option.getD_some] at h1
    obtain ⟨k1, k2⟩ := laid_bound h2
    constructor
    · intro c hc
      rcases List.mem_cons.1 hc with rfl | hc2
      · exact h1
      · have := k1 c hc2
        omega
    · omega

theorem laid_end_le {mem : Nat → header_t} {brk : Nat} :
    ∀ {l : List Nat}, Laid mem brk l → ∀ a ∈ l, a + sizeof_header_t + (mem a).size ≤ brk
  | [], _, a, ha => by simp at ha
  | b :: l, h, a, ha => by
    rcases List.mem_cons.1 ha with rfl | h2
    · exact (laid_bound h).2
    · exact laid_end_le h.2 a h2

theorem laid_nodup {mem : Nat → header_t} {brk : Nat} :
    ∀ {l : List Nat}, Laid mem brk l → l.Nodup
  | [], _ => List.nodup_nil
  | a :: l, h => by
    refine List.nodup_cons.2 ⟨?_, laid_nodup h.2⟩
    intro ha
    have := (laid_bound h).1 a ha
    have h24 : sizeof_header_t = 24 := rfl
    omega

theorem laid_snoc {mem : Nat → header_t} {brk h : Nat} :
    ∀ {l : List Nat}, Laid mem brk (l ++ [h]) ↔
      (Laid mem h l ∧ h + sizeof_header_t + (mem h).size ≤ brk)
  | [] => by simp [Laid]
  | a :: l => by
    have ih := @laid_snoc mem brk h l
    have hh : (l ++ [h]).head?.getD brk = l.head?.getD h := by
      cases l <;> simp
    show (a + sizeof_header_t + (mem a).size ≤ (l ++ [h]).head?.getD brk ∧
        Laid mem brk (l ++ [h])) ↔
      ((a + sizeof_header_t + (mem a).size ≤ l.head?.getD h ∧ Laid mem h l) ∧
        h + sizeof_header_t + (mem h).size ≤ brk)
    rw [hh, ih]
    tauto

theorem store_same (mem : Nat → header_t) (a : Nat) (h : header_t) :
    store mem a h a = h := by
  simp [store]

theorem store_other (mem : Nat → header_t) {a x : Nat} (h : header_t) (hx : x ≠ a) :
    store mem a h x = mem x := by
  simp [store, hx]

theorem isList_head_mem {mem : Nat → header_t} {p : Nat} {a : Nat} {l : List Nat}
    (h : IsList mem p (a :: l)) : p = a :=
  h.1

/-- Linking a new header `h` behind the last header `t`, as the growth path
of `malloc` does. -/
theorem isList_link {mem : Nat → header_t} {t h : Nat} (N : header_t) (hN : N.next = 0)
    (hh : h ≠ 0) :
    ∀ (L : List Nat) (p : Nat), IsList mem p (L ++ [t]) → (L ++ [t]).Nodup →
      h ∉ L ++ [t] →
      IsList (store (store mem h N) t { (store mem h N) t with next := h }) p (L ++ [t, h])
  | [], p, hl, _, hni => by
    obtain ⟨hp, ht, _⟩ := hl
    have hne : h ≠ t := by
      intro e
      apply hni
      simp [e]
    refine ⟨hp, ht, ?_⟩
    rw [store_same]
    refine ⟨rfl, hh, ?_⟩
    rw [store_other _ _ hne, store_same]
    exact hN
  | a :: L, p, hl, hnd, hni => by
    obtain ⟨hp, ha, hrest⟩ := hl
    have hnd2 : a ∉ L ++ [t] ∧ (L ++ [t]).Nodup := List.nodup_cons.1 hnd
    have hat : a ≠ t := by
      intro e
      apply hnd2.1
      simp [e]
    have hah : a ≠ h := by
      intro e
      apply hni
      simp [e]
    have hni2 : h ∉ L ++ [t] := by
      intro hm
      exact hni (List.mem_cons_of_mem a hm)
    refine ⟨hp, ha, ?_⟩
    rw [store_other _ _ hat, store_other _ _ hah]
    exact isList_link N hN hh L _ hrest hnd2.2 hni2

/-- Cutting the last header `h` off behind its predecessor `t`. -/
theorem isList_unlink {mem : Nat → header_t} {t h : Nat} :
    ∀ (L : List Nat) (p : Nat), IsList mem p (L ++ [t, h]) → (L ++ [t, h]).Nodup →
      IsList (store mem t { mem t with next := 0 }) p (L ++ [t])
  | [], p, hl, _ => by
    obtain ⟨hp, ht, _⟩ := hl
    refine ⟨hp, ht, ?_⟩
    rw [store_same]
    rfl
  | a :: L, p, hl, hnd => by
    obtain ⟨hp, ha, hrest⟩ := hl
    have hnd2 : a ∉ L ++ [t, h] ∧ (L ++ [t, h]).Nodup := List.nodup_cons.1 hnd
    have hat : a ≠ t := by
      intro e
      apply hnd2.1
      simp [e]
    refine ⟨hp, ha, ?_⟩
    rw [store_other _ _ hat]
    exact isList_unlink L _ hrest hnd2.2

/-- The unlink loop of `free` on a list of at least two headers whose last
one is `tail`: it stops, clears the `next` of the predecessor `t` and makes
`t` the tail. -/
theorem unlink_loop_run {t h : Nat} :
    ∀ (L : List Nat) (p : Nat) (s : State) (fuel : Nat),
      IsList s.mem p (L ++ [t, h]) → s.tail = h → (L ++ [t, h]).Nodup →
      L.length + 2 ≤ fuel →
      unlink_loop fuel s p =
        some { s with mem := store s.mem t { s.mem t with next := 0 }, tail := t }
  | [], p, s, fuel, hl, htl, _, hf => by
    obtain ⟨hp, ht, hq, _, _⟩ := hl
    subst hp
    obtain ⟨k, rfl⟩ : ∃ k, fuel = k + 2 := ⟨fuel - 2, by simp at hf; omega⟩
    have hnext : (s.mem p).next = s.tail := by rw [htl]; exact hq
    simp only [unlink_loop, if_neg ht, hnext, if_true, store_same]
  | a :: L, p, s, fuel, hl, htl, hnd, hf => by
    obtain ⟨hp, ha, hrest⟩ := hl
    subst hp
    obtain ⟨k, rfl⟩ : ∃ k, fuel = k + 1 := ⟨fuel - 1, by simp at hf; omega⟩
    have hnd2 : p ∉ L ++ [t, h] ∧ (L ++ [t, h]).Nodup := List.nodup_cons.1 hnd
    have hq : (s.mem p).next ≠ s.tail := by
      rw [htl]
      intro e
      rw [e] at hrest
      have hmem : h ∈ L ++ [t] := by
        cases L with
        | nil =>
          have := isList_head_mem hrest
          simp [this]
        | cons b L =>
          have := isList_head_mem hrest
          simp [this]
      have hsplit : L ++ [t, h] = (L ++ [t]) ++ [h] := by simp
      rw [hsplit] at hnd2
      have := (List.nodup_append.1 hnd2.2).2.2
      exact this hmem (by simp)
    simp only [unlink_loop, if_neg ha, if_neg hq]
    exact unlink_loop_run L _ s k hrest htl hnd2.2 (by simp at hf; omega)

/-! ## Fuel -/

theorem get_free_block_loop_mono (mem : Nat → header_t) (size : Nat) :
    ∀ (fuel k p r : Nat), get_free_block_loop mem size fuel p = some r →
      get_free_block_loop mem size (fuel + k) p = some r
  | 0, _, _, _, h => by simp [get_free_block_loop] at h
  | fuel + 1, k, p, r, h => by
    have e : fuel + 1 + k = (fuel + k) + 1 := by omega
    rw [e]
    simp only [get_free_block_loop] at h ⊢
    by_cases hp : p = 0
    · simpa [hp] using h
    · simp only [if_neg hp] at h ⊢
      by_cases hc : ((mem p).is_free && decide (size ≤ (mem p).size)) = true
      · simpa [hc] using h
      · simp only [hc] at h ⊢
        exact get_free_block_loop_mono mem size fuel k _ r h

theorem unlink_loop_mono :
    ∀ (fuel k : Nat) (s : State) (p : Nat) (r : State), unlink_loop fuel s p = some r →
      unlink_loop (fuel + k) s p = some r
  | 0, _, _, _, _, h => by simp [unlink_loop] at h
  | fuel + 1, k, s, p, r, h => by
    have e : fuel + 1 + k = (fuel + k) + 1 := by omega
    rw [e]
    simp only [unlink_loop] at h ⊢
    by_cases hp : p = 0
    · simpa [hp] using h
    · simp only [if_neg hp] at h ⊢
      exact unlink_loop_mono fuel k _ _ r h

/-- Whatever fuel the scan was given, a result it returns is the first fit of
the list, or null when nothing fits. -/
theorem get_free_block_sound {s : State} {size fuel r : Nat} {l : List Nat}
    (hl : IsList s.mem s.head l) (h : get_free_block fuel s size = some r) :
    r = (l.find? (fits s.mem size)).getD 0 := by
  have h1 := get_free_block_loop_mono s.mem size fuel (l.length + 1) s.head r h
  have h2 := get_free_block_loop_isList s.mem size l s.head (fuel + (l.length + 1)) hl
    (by omega)
  rw [h1] at h2
  exact Option.some.inj h2

theorem get_free_block_hit {s : State} {size fuel r : Nat} {l : List Nat}
    (hl : IsList s.mem s.head l) (h : get_free_block fuel s size = some r) (hr : r ≠ 0) :
    r ∈ l ∧ (s.mem r).is_free = true ∧ size ≤ (s.mem r).size := by
  have e := get_free_block_sound hl h
  cases hfind : l.find? (fits s.mem size) with
  | none =>
    rw [hfind] at e
    exact absurd e hr
  | some b =>
    rw [hfind] at e
    have e2 : r = b := e
    subst e2
    obtain ⟨hb, pre, post, hsplit, _⟩ := List.find?_eq_some.1 hfind
    refine ⟨by rw [hsplit]; simp, ?_⟩
    simpa [fits] using hb

theorem unlink_loop_sound {t h : Nat} {L : List Nat} {p : Nat} {s r : State} {fuel : Nat}
    (hl : IsList s.mem p (L ++ [t, h])) (htl : s.tail = h) (hnd : (L ++ [t, h]).Nodup)
    (hr : unlink_loop fuel s p = some r) :
    r = { s with mem := store s.mem t { s.mem t with next := 0 }, tail := t } := by
  have h1 := unlink_loop_mono fuel (L.length + 2) s p r hr
  have h2 := unlink_loop_run L p s (fuel + (L.length + 2)) hl htl hnd (by omega)
  rw [h1] at h2
  exact Option.some.inj h2

/-! ## The break -/

theorem sbrk_fail_unchanged {s : State} {t : Nat} (hb : s.brk ≠ SBRK_FAILED)
    (h : (sbrk s t).1 = SBRK_FAILED) : (sbrk s t).2 = s := by
  unfold sbrk at h ⊢
  split_ifs at h ⊢ <;> first | rfl | exact absurd h hb

theorem neg_total_eq {size : Nat} (h : sizeof_header_t + size < 2 ^ 63) :
    neg_total size = 2 ^ 64 - (sizeof_header_t + size) := by
  have h24 : sizeof_header_t = 24 := rfl
  unfold neg_total
  rw [h24] at h ⊢
  omega

theorem sbrk_shrink {s : State} {size : Nat} (h : sizeof_header_t + size < 2 ^ 63)
    (hroom : s.lo + (sizeof_header_t + size) ≤ s.brk) :
    sbrk s (neg_total size) =
      (s.brk, { s with brk := s.brk - (sizeof_header_t + size) }) := by
  have h24 : sizeof_header_t = 24 := rfl
  rw [neg_total_eq h]
  have e : 2 ^ 64 - (2 ^ 64 - (sizeof_header_t + size)) = sizeof_header_t + size := by
    rw [h24] at h ⊢
    omega
  have h0 : 2 ^ 64 - (sizeof_header_t + size) ≠ 0 := by
    rw [h24] at h ⊢
    omega
  have h1 : ¬ (2 ^ 64 - (sizeof_header_t + size) < 2 ^ 63) := by
    rw [h24] at h ⊢
    omega
  unfold sbrk
  rw [if_neg h0, if_neg h1, e, if_pos hroom]

/-! ## The growth path keeps the invariant -/

theorem grow_mem_other (mem : Nat → header_t) (brk tail n : Nat) {a : Nat}
    (h1 : a ≠ brk) (h2 : a ≠ tail) : grow_mem mem brk tail n a = mem a := by
  unfold grow_mem
  split_ifs
  · rw [store_other _ _ h2, store_other _ _ h1]
  · rw [store_other _ _ h1]

theorem grow_mem_new (mem : Nat → header_t) (brk tail n : Nat) (h : tail ≠ brk) :
    grow_mem mem brk tail n brk = { size := n, is_free := false, next := 0 } := by
  unfold grow_mem
  split_ifs
  · rw [store_other _ _ (Ne.symm h), store_same]
  · rw [store_same]

theorem grow_mem_tail (mem : Nat → header_t) (brk tail n : Nat) (h0 : tail ≠ 0)
    (h : tail ≠ brk) :
    grow_mem mem brk tail n tail = { mem tail with next := brk } := by
  unfold grow_mem
  rw [if_pos h0, store_same, store_other _ _ h]

theorem grow_mem_size (mem : Nat → header_t) (brk tail n : Nat) {a : Nat} (h1 : a ≠ brk) :
    (grow_mem mem brk tail n a).size = (mem a).size ∧
      (grow_mem mem brk tail n a).is_free = (mem a).is_free := by
  by_cases h2 : a = tail
  · subst h2
    by_cases h0 : a = 0
    · unfold grow_mem
      rw [if_neg (by simpa using h0), store_other _ _ h1]
      exact ⟨rfl, rfl⟩
    · rw [grow_mem_tail mem brk a n h0 h1]
      exact ⟨rfl, rfl⟩
  · rw [grow_mem_other mem brk tail n h1 h2]
    exact ⟨rfl, rfl⟩

theorem isList_nil_iff {mem : Nat → header_t} {p : Nat} : IsList mem p [] ↔ p = 0 :=
  Iff.rfl

theorem isList_head_ne_zero {mem : Nat → header_t} {p a : Nat} {l : List Nat}
    (h : IsList mem p (a :: l)) : p ≠ 0 := by
  rw [h.1]
  exact h.2.1

theorem nil_or_snoc (l : List Nat) : l = [] ∨ ∃ L t, l = L ++ [t] := by
  rcases List.eq_nil_or_concat l with h | ⟨L, t, h⟩
  · exact Or.inl h
  · exact Or.inr ⟨L, t, by rw [h, List.concat_eq_append]⟩

theorem isList_grow {mem : Nat → header_t} {head tail brk n : Nat} {l : List Nat}
    (hl : IsList mem head l) (htail : tail = l.getLast?.getD 0) (hnd : l.Nodup)
    (hni : brk ∉ l) (hb : brk ≠ 0) :
    IsList (grow_mem mem brk tail n) (if head = 0 then brk else head) (l ++ [brk]) := by
  rcases nil_or_snoc l with rfl | ⟨L, t, rfl⟩
  · have hh : head = 0 := hl
    have ht : tail = 0 := by simpa using htail
    subst hh
    subst ht
    simp only [if_true, List.nil_append, grow_mem, ne_eq, not_true_eq_false, if_false]
    refine ⟨rfl, hb, ?_⟩
    rw [store_same]
    rfl
  · have ht : tail = t := by simpa using htail
    subst ht
    have ht0 : tail ≠ 0 := isList_ne_zero hl tail (by simp)
    have hh : head ≠ 0 := by
      cases L with
      | nil => exact isList_head_ne_zero hl
      | cons a L => exact isList_head_ne_zero hl
    rw [if_neg hh]
    have e : L ++ [tail] ++ [brk] = L ++ [tail, brk] := by simp
    rw [e]
    unfold grow_mem
    rw [if_pos ht0]
    exact isList_link _ rfl hb L head hl hnd hni

theorem inv_grow {s s1 : State} {l : List Nat} {n : Nat} (hinv : Inv s l)
    (hsmall : sizeof_header_t + n < 2 ^ 63)
    (hbrk : s1.brk = s.brk + sizeof_header_t + n) (htail : s1.tail = s.brk)
    (hhead : s1.head = (if s.head = 0 then s.brk else s.head))
    (hlo : s1.lo = s.lo) (hhi : s1.hi = s.hi) (hroom : s.brk + sizeof_header_t + n ≤ s.hi)
    (hmem : s1.mem = grow_mem s.mem s.brk s.tail n) :
    Inv s1 (l ++ [s.brk]) := by
  have h24 : sizeof_header_t = 24 := rfl
  have hlt : ∀ a ∈ l, a ≠ s.brk := by
    intro a ha e
    have := laid_end_le hinv.laid a ha
    omega
  have hni : s.brk ∉ l := fun hm => hlt _ hm rfl
  have hb0 : s.brk ≠ 0 := by
    have := hinv.lo_pos
    have := hinv.lo_brk
    omega
  have htl : s.tail ≠ s.brk := by
    intro e
    rcases nil_or_snoc l with hnil | ⟨L, t, hL⟩
    · have := hinv.tail_last
      rw [hnil] at this
      simp at this
      omega
    · have h2 := hinv.tail_last
      rw [hL] at h2
      simp at h2
      apply hlt t (by rw [hL]; simp)
      rw [← h2, e]
  have hsz : ∀ a ∈ l, (s1.mem a).size = (s.mem a).size := by
    intro a ha
    rw [hmem]
    exact (grow_mem_size s.mem s.brk s.tail n (hlt a ha)).1
  have hnew : s1.mem s.brk = { size := n, is_free := false, next := 0 } := by
    rw [hmem]
    exact grow_mem_new s.mem s.brk s.tail n htl
  refine ⟨?_, ?_, ?_, ?_, ?_, ?_, ?_, ?_, ?_⟩
  · rw [hmem, hhead]
    exact isList_grow hinv.list hinv.tail_last (laid_nodup hinv.laid) hni hb0
  · rw [htail]
    simp
  · rw [laid_snoc]
    refine ⟨laid_mono (le_refl _) (fun a ha => le_of_eq (hsz a ha)) hinv.laid, ?_⟩
    rw [hnew, hbrk]
  · intro a ha
    rw [hlo]
    rcases List.mem_append.1 ha with h1 | h1
    · exact hinv.above a h1
    · have : a = s.brk := by simpa using h1
      rw [this]
      exact hinv.lo_brk
  · intro a ha
    rcases List.mem_append.1 ha with h1 | h1
    · rw [hsz a h1]
      exact hinv.small a h1
    · have : a = s.brk := by simpa using h1
      rw [this, hnew]
      exact hsmall
  · rw [hlo]
    exact hinv.lo_pos
  · rw [hlo, hbrk]
    have := hinv.lo_brk
    omega
  · rw [hbrk, hhi]
    exact hroom
  · rw [hhi]
    exact hinv.hi_lt

/-! ## Writes that keep the list in place -/

theorem inv_congr {s s1 : State} {l : List Nat} (hinv : Inv s l)
    (hhead : s1.head = s.head) (htail : s1.tail = s.tail) (hbrk : s1.brk = s.brk)
    (hlo : s1.lo = s.lo) (hhi : s1.hi = s.hi)
    (hnext : ∀ a ∈ l, (s1.mem a).next = (s.mem a).next)
    (hsize : ∀ a ∈ l, (s1.mem a).size ≤ (s.mem a).size) :
    Inv s1 l := by
  refine ⟨?_, ?_, ?_, ?_, ?_, ?_, ?_, ?_, ?_⟩
  · rw [hhead]
    exact isList_congr hnext hinv.list
  · rw [htail]
    exact hinv.tail_last
  · rw [hbrk]
    exact laid_mono (le_refl _) hsize hinv.laid
  · rw [hlo]
    exact hinv.above
  · intro a ha
    have h1 := hinv.small a ha
    have h2 := hsize a ha
    omega
  · rw [hlo]
    exact hinv.lo_pos
  · rw [hlo, hbrk]
    exact hinv.lo_brk
  · rw [hbrk, hhi]
    exact hinv.brk_hi
  · rw [hhi]
    exact hinv.hi_lt

theorem inv_reuse {s : State} {l : List Nat} {h n : Nat} (hinv : Inv s l)
    (hn : n ≤ (s.mem h).size) :
    Inv { s with mem := store s.mem h { s.mem h with size := n } } l := by
  refine inv_congr hinv rfl rfl rfl rfl rfl ?_ ?_
  · intro a _
    by_cases e : a = h
    · subst e
      simp only [store_same]
    · simp only [store_other _ _ e]
  · intro a _
    by_cases e : a = h
    · subst e
      simp only [store_same]
      exact hn
    · simp only [store_other _ _ e]
      exact le_refl _

theorem inv_flag {s : State} {l : List Nat} (h : Nat) (hinv : Inv s l) :
    Inv { s with mem := store s.mem h { s.mem h with is_free := true } } l := by
  refine inv_congr hinv rfl rfl rfl rfl rfl ?_ ?_
  · intro a _
    by_cases e : a = h
    · subst e
      simp only [store_same]
    · simp only [store_other _ _ e]
  · intro a _
    by_cases e : a = h
    · subst e
      simp only [store_same]
      exact le_refl _
    · simp only [store_other _ _ e]
      exact le_refl _

/-! ## Heap-top reclamation -/

/-- A header of the list whose payload ends at the break is the last one. -/
theorem end_at_brk_is_last {s : State} {l : List Nat} {h : Nat} (hinv : Inv s l)
    (hh : h ∈ l) (hend : h + sizeof_header_t + (s.mem h).size = s.brk) :
    ∃ L, l = L ++ [h] := by
  have h24 : sizeof_header_t = 24 := rfl
  rcases nil_or_snoc l with hnil | ⟨L, t, hL⟩
  · rw [hnil] at hh
    simp at hh
  · refine ⟨L, ?_⟩
    rw [hL] at hh
    rcases List.mem_append.1 hh with h1 | h1
    · have hl := hinv.laid
      rw [hL, laid_snoc] at hl
      have := laid_end_le hl.1 h h1
      omega
    · have : h = t := by simpa using h1
      rw [hL, this]

theorem sbrk_query (s : State) : (sbrk s 0).1 = s.brk := by
  simp [sbrk]

theorem free_last_single {s : State} {h : Nat} (fuel : Nat) (hinv : Inv s [h])
    (hend : h + sizeof_header_t + (s.mem h).size = s.brk) :
    free fuel s (h + sizeof_header_t) = some { s with head := 0, tail := 0, brk := h } := by
  have h24 : sizeof_header_t = 24 := rfl
  have hhead : s.head = h := hinv.list.1
  have htail : s.tail = h := by
    have := hinv.tail_last
    simpa using this
  have hp : h + sizeof_header_t ≠ 0 := by omega
  have hsmall := hinv.small h (by simp)
  have hlo := hinv.above h (by simp)
  have hcond : (h + sizeof_header_t + (s.mem h).size) % 2 ^ 64 = (sbrk s 0).1 := by
    have k1 := hinv.brk_hi
    have k2 := hinv.hi_lt
    rw [sbrk_query, Nat.mod_eq_of_lt (by omega)]
    exact hend
  have hht : s.head = s.tail := by rw [hhead, htail]
  have hshr := @sbrk_shrink { s with head := 0, tail := 0 } (s.mem h).size hsmall
    (by simp only []; omega)
  have hb : s.brk - (sizeof_header_t + (s.mem h).size) = h := by omega
  simp only [free, if_neg hp, Nat.add_sub_cancel]
  rw [if_pos hcond, if_pos hht]
  simp only [hshr, hb]

theorem free_last_multi {s : State} {L : List Nat} {t h : Nat} {fuel : Nat}
    (hinv : Inv s (L ++ [t, h]))
    (hend : h + sizeof_header_t + (s.mem h).size = s.brk) (hf : L.length + 2 ≤ fuel) :
    free fuel s (h + sizeof_header_t) =
      some { s with mem := store s.mem t { s.mem t with next := 0 }, tail := t, brk := h } := by
  have h24 : sizeof_header_t = 24 := rfl
  have hnd := laid_nodup hinv.laid
  have htail : s.tail = h := by
    have := hinv.tail_last
    simpa using this
  have hne : t ≠ h := by
    intro e
    rw [e] at hnd
    have hsplit : L ++ [h, h] = (L ++ [h]) ++ [h] := by simp
    rw [hsplit] at hnd
    exact (List.nodup_append.1 hnd).2.2 (show h ∈ L ++ [h] by simp) (by simp)
  have hht : s.head ≠ s.tail := by
    rw [htail]
    intro e
    have hl := hinv.list
    rw [e] at hl
    cases L with
    | nil =>
      have := isList_head_mem hl
      exact hne this.symm
    | cons a L =>
      have := isList_head_mem hl
      rw [← this] at hnd
      have hm : h ∈ L ++ [t, h] := by simp
      exact (List.nodup_cons.1 hnd).1 hm
  have hp : h + sizeof_header_t ≠ 0 := by omega
  have hsmall := hinv.small h (by simp)
  have hlo := hinv.above h (by simp)
  have hcond : (h + sizeof_header_t + (s.mem h).size) % 2 ^ 64 = (sbrk s 0).1 := by
    have k1 := hinv.brk_hi
    have k2 := hinv.hi_lt
    rw [sbrk_query, Nat.mod_eq_of_lt (by omega)]
    exact hend
  have hrun := unlink_loop_run L s.head s fuel hinv.list htail hnd hf
  have hsz : (store s.mem t { s.mem t with next := 0 } h).size = (s.mem h).size := by
    rw [store_other _ _ (Ne.symm hne)]
  have hshr := @sbrk_shrink
    { s with mem := store s.mem t { s.mem t with next := 0 }, tail := t } (s.mem h).size hsmall
    (by simp only []; omega)
  have hb : s.brk - (sizeof_header_t + (s.mem h).size) = h := by omega
  simp only [free, if_neg hp, if_neg hht, Nat.add_sub_cancel, hrun, hsz, hshr, hb]
  rw [if_pos hcond]

theorem free_mono {fuel : Nat} (k : Nat) {s r : State} {p : Nat}
    (h : free fuel s p = some r) : free (fuel + k) s p = some r := by
  unfold free at h ⊢
  by_cases hp : p = 0
  · simpa [hp] using h
  · simp only [if_neg hp] at h ⊢
    by_cases hc : (p + (s.mem (p - sizeof_header_t)).size) % 2 ^ 64 = (sbrk s 0).1
    · simp only [if_pos hc] at h ⊢
      by_cases ht : s.head = s.tail
      · simpa [ht] using h
      · simp only [if_neg ht] at h ⊢
        cases hu : unlink_loop fuel s s.head with
        | none =>
          rw [hu] at h
          simp at h
        | some s1 =>
          rw [hu] at h
          rw [unlink_loop_mono fuel k s s.head s1 hu]
          exact h
    · rw [if_neg hc] at h ⊢
      exact h

theorem inv_reclaim_single {s : State} {h : Nat} (hinv : Inv s [h]) :
    Inv { s with head := 0, tail := 0, brk := h } [] := by
  have hlo := hinv.above h (by simp)
  have hle := laid_end_le hinv.laid h (by simp)
  have hhi := hinv.brk_hi
  refine ⟨rfl, rfl, trivial, ?_, ?_, hinv.lo_pos, hlo, ?_, hinv.hi_lt⟩
  · intro a ha
    simp at ha
  · intro a ha
    simp at ha
  · show h ≤ s.hi
    omega

theorem inv_reclaim_multi {s : State} {L : List Nat} {t h : Nat}
    (hinv : Inv s (L ++ [t, h])) :
    Inv { s with mem := store s.mem t { s.mem t with next := 0 }, tail := t, brk := h }
      (L ++ [t]) := by
  have hnd := laid_nodup hinv.laid
  have hsplit : L ++ [t, h] = (L ++ [t]) ++ [h] := by simp
  have hlo := hinv.above h (by simp)
  have hle := laid_end_le hinv.laid h (by simp)
  have hhi := hinv.brk_hi
  have hlaid := hinv.laid
  rw [hsplit, laid_snoc] at hlaid
  have hsz : ∀ a, (store s.mem t { s.mem t with next := 0 } a).size = (s.mem a).size := by
    intro a
    by_cases e : a = t
    · subst e
      rw [store_same]
    · rw [store_other _ _ e]
  have hsub : ∀ a ∈ L ++ [t], a ∈ L ++ [t, h] := by
    intro a ha
    rw [hsplit]
    exact List.mem_append_left _ ha
  refine ⟨?_, ?_, ?_, ?_, ?_, hinv.lo_pos, hlo, ?_, hinv.hi_lt⟩
  · exact isList_unlink L s.head hinv.list hnd
  · show t = (L ++ [t]).getLast?.getD 0
    simp
  · exact laid_mono (le_refl _) (fun a _ => le_of_eq (hsz a)) hlaid.1
  · intro a ha
    exact hinv.above a (hsub a ha)
  · intro a ha
    show sizeof_header_t + (store s.mem t { s.mem t with next := 0 } a).size < 2 ^ 63
    rw [hsz a]
    exact hinv.small a (hsub a ha)
  · show h ≤ s.hi
    omega

/-- What `free` does to the block whose payload ends at the break: with fuel
for one step per header it returns; the list loses its last header, the break
drops to that header's address, and only the `next` field of the new tail is
rewritten. -/
theorem free_reclaim_spec {s : State} {l : List Nat} {h : Nat} (hinv : Inv s l)
    (hh : h ∈ l) (hend : h + sizeof_header_t + (s.mem h).size = s.brk) :
    ∃ L, l = L ++ [h] ∧ ∀ fuel, l.length ≤ fuel →
      ∃ s1, free fuel s (h + sizeof_header_t) = some s1 ∧ Inv s1 L ∧ s1.brk = h ∧
        s1.lo = s.lo ∧ s1.hi = s.hi ∧ s1.tail = L.getLast?.getD 0 ∧
        s1.head = (if L = [] then 0 else s.head) ∧
        (∀ a, L.getLast? ≠ some a → s1.mem a = s.mem a) ∧
        (∀ t, L.getLast? = some t → s1.mem t = { s.mem t with next := 0 }) := by
  obtain ⟨L, hL⟩ := end_at_brk_is_last hinv hh hend
  refine ⟨L, hL, ?_⟩
  intro fuel hf
  subst hL
  rcases nil_or_snoc L with hnil | ⟨L2, t, hL2⟩
  · subst hnil
    refine ⟨_, free_last_single fuel hinv hend, inv_reclaim_single hinv, rfl, rfl, rfl, rfl,
      rfl, ?_, ?_⟩
    · intro a _
      rfl
    · intro t ht
      simp at ht
  · subst hL2
    have e : L2 ++ [t] ++ [h] = L2 ++ [t, h] := by simp
    rw [e] at hinv hf
    have hf2 : L2.length + 2 ≤ fuel := by simpa using hf
    refine ⟨_, free_last_multi hinv hend hf2, inv_reclaim_multi hinv, rfl, rfl, rfl, ?_, ?_,
      ?_, ?_⟩
    · show t = (L2 ++ [t]).getLast?.getD 0
      simp
    · have hne : L2 ++ [t] ≠ [] := by simp
      rw [if_neg hne]
    · intro a ha
      have hne : a ≠ t := by
        intro e
        apply ha
        simp [e]
      exact store_other _ _ hne
    · intro u hu
      have e : t = u := by simpa using hu
      subst e
      exact store_same _ _ _

/-! ## Every call keeps the invariant -/

theorem inv_brk_ne {s : State} {l : List Nat} (hinv : Inv s l) : s.brk ≠ SBRK_FAILED := by
  have h1 := hinv.brk_hi
  have h2 := hinv.hi_lt
  show s.brk ≠ 2 ^ 64 - 1
  omega

theorem malloc_inv {s s1 : State} {l : List Nat} {n fuel p : Nat} (hinv : Inv s l)
    (hsmall : sizeof_header_t + n < 2 ^ 63) (hm : malloc fuel s n = some (p, s1)) :
    ∃ l1, Inv s1 l1 ∧ (l1 = l ∨ l1 = l ++ [s.brk]) ∧
      (p ≠ 0 → ∃ h ∈ l1, p = h + sizeof_header_t) := by
  by_cases hn : n = 0
  · subst hn
    have h0 : malloc fuel s 0 = some (0, s) := by simp [malloc]
    rw [h0] at hm
    have e := Option.some.inj hm
    have e1 : p = 0 := (congrArg Prod.fst e).symm
    have e2 : s1 = s := (congrArg Prod.snd e).symm
    subst e2
    exact ⟨l, hinv, Or.inl rfl, fun hp => absurd e1 hp⟩
  · cases hg : get_free_block fuel s n with
    | none =>
      simp [malloc, hn, hg] at hm
    | some r =>
      by_cases hr : r = 0
      · subst hr
        by_cases hfail : (sbrk s ((sizeof_header_t + n) % 2 ^ 64)).1 = SBRK_FAILED
        · have hun := sbrk_fail_unchanged (inv_brk_ne hinv) hfail
          simp only [malloc, if_neg hn, hg, ne_eq, not_true_eq_false, if_false, hfail,
            if_true, hun] at hm
          have e := Option.some.inj hm
          have e1 : p = 0 := (congrArg Prod.fst e).symm
          have e2 : s1 = s := (congrArg Prod.snd e).symm
          subst e2
          exact ⟨l, hinv, Or.inl rfl, fun hp => absurd e1 hp⟩
        · obtain ⟨s2, hm2, hbrk, htail, hhead, hlo, hhi, hroom, hmem⟩ :=
            malloc_grow_core (Nat.pos_of_ne_zero hn) hsmall hg hfail
          rw [hm2] at hm
          have e := Option.some.inj hm
          have e1 : p = s.brk + sizeof_header_t := (congrArg Prod.fst e).symm
          have e2 : s1 = s2 := (congrArg Prod.snd e).symm
          subst e2
          refine ⟨l ++ [s.brk], inv_grow hinv hsmall hbrk htail hhead hlo hhi hroom hmem,
            Or.inr rfl, fun _ => ⟨s.brk, by simp, e1⟩⟩
      · obtain ⟨hmem, _, hle⟩ := get_free_block_hit hinv.list hg hr
        simp only [malloc, if_neg hn, hg, ne_eq, hr, not_false_eq_true, if_true] at hm
        have e := Option.some.inj hm
        have e1 : p = r + sizeof_header_t := (congrArg Prod.fst e).symm
        have e2 : s1 = { s with mem := store s.mem r { s.mem r with size := n } } :=
          (congrArg Prod.snd e).symm
        subst e2
        exact ⟨l, inv_reuse hinv hle, Or.inl rfl, fun _ => ⟨r, hmem, e1⟩⟩

theorem free_inv {s s1 : State} {l : List Nat} {h fuel : Nat} (hinv : Inv s l)
    (hh : h ∈ l) (hf : free fuel s (h + sizeof_header_t) = some s1) :
    ∃ l1, Inv s1 l1 ∧ (l1 = l ∨ l = l1 ++ [h]) := by
  by_cases hend : h + sizeof_header_t + (s.mem h).size = s.brk
  · obtain ⟨L, hL, hrun⟩ := free_reclaim_spec hinv hh hend
    obtain ⟨s2, hf2, hinv2, _⟩ := hrun (fuel + l.length) (by omega)
    rw [free_mono l.length hf] at hf2
    have e : s1 = s2 := Option.some.inj hf2
    subst e
    exact ⟨L, hinv2, Or.inr hL⟩
  · have h24 : sizeof_header_t = 24 := rfl
    have hp : h + sizeof_header_t ≠ 0 := by omega
    have hc : ¬ ((h + sizeof_header_t + (s.mem h).size) % 2 ^ 64 = (sbrk s 0).1) := by
      have k0 := laid_end_le hinv.laid h hh
      have k1 := hinv.brk_hi
      have k2 := hinv.hi_lt
      rw [sbrk_query, Nat.mod_eq_of_lt (by omega)]
      exact hend
    simp only [free, if_neg hp, Nat.add_sub_cancel] at hf
    rw [if_neg hc] at hf
    have e : s1 = { s with mem := store s.mem h { s.mem h with is_free := true } } :=
      (Option.some.inj hf).symm
    subst e
    exact ⟨l, inv_flag h hinv, Or.inl rfl⟩

theorem inv_empty (mem : Nat → header_t) {B hi : Nat} (hB : 0 < B) (hle : B ≤ hi)
    (hhi : hi < 2 ^ 64 - 1) : Inv (empty_heap mem B hi) [] := by
  refine ⟨rfl, rfl, trivial, ?_, ?_, hB, le_refl _, hle, hhi⟩
  · intro a ha
    simp at ha
  · intro a ha
    simp at ha

/-- Every reachable state has a finite, well laid out header list, and every
live pointer is the payload address of a header of that list. -/
theorem reachable_inv {s : State} {live : List Nat} (hr : Reachable s live) :
    ∃ l, Inv s l ∧ ∀ q ∈ live, ∃ h ∈ l, q = h + sizeof_header_t := by
  induction hr with
  | init mem B hi hB hle hhi =>
    exact ⟨[], inv_empty mem hB hle hhi, fun q hq => by simp at hq⟩
  | @alloc s0 live0 fuel n p s1 _ hsmall hm ih =>
    obtain ⟨l, hinv, hlive⟩ := ih
    obtain ⟨l1, hinv1, hl1, hp⟩ := malloc_inv hinv hsmall hm
    refine ⟨l1, hinv1, ?_⟩
    have hsub : ∀ a ∈ l, a ∈ l1 := by
      intro a ha
      rcases hl1 with e | e
      · rw [e]
        exact ha
      · rw [e]
        exact List.mem_append_left _ ha
    have hold : ∀ q ∈ live0, ∃ h ∈ l1, q = h + sizeof_header_t := by
      intro q hq
      obtain ⟨h, hh, e⟩ := hlive q hq
      exact ⟨h, hsub h hh, e⟩
    intro q hq
    by_cases hp0 : p = 0
    · rw [if_pos hp0] at hq
      exact hold q hq
    · rw [if_neg hp0] at hq
      rcases List.mem_cons.1 hq with e | hq2
      · rw [e]
        exact hp hp0
      · exact hold q hq2
  | @dealloc s0 live0 fuel p s1 _ hvalid hf ih =>
    obtain ⟨l, hinv, hlive⟩ := ih
    have hfilter : ∀ q ∈ live0.filter (fun q => decide (q ≠ p)), q ∈ live0 ∧ q ≠ p := by
      intro q hq
      have := List.mem_filter.1 hq
      exact ⟨this.1, by simpa using this.2⟩
    rcases hvalid with hp0 | hpl
    · subst hp0
      have h0 : free fuel s0 0 = some s0 := by simp [free]
      rw [h0] at hf
      have e : s0 = s1 := Option.some.inj hf
      subst e
      exact ⟨l, hinv, fun q hq => hlive q (hfilter q hq).1⟩
    · obtain ⟨h, hh, e⟩ := hlive p hpl
      subst e
      obtain ⟨l1, hinv1, hl1⟩ := free_inv hinv hh hf
      refine ⟨l1, hinv1, ?_⟩
      intro q hq
      obtain ⟨hq1, hq2⟩ := hfilter q hq
      obtain ⟨g, hg, e⟩ := hlive q hq1
      rcases hl1 with e1 | e1
      · rw [e1]
        exact ⟨g, hg, e⟩
      · rw [e1] at hg
        rcases List.mem_append.1 hg with hg1 | hg1
        · exact ⟨g, hg1, e⟩
        · have : g = h := by simpa using hg1
          rw [this] at e
          exact absurd e hq2

/-! ## Concrete runs -/

theorem heap0_malloc : malloc 3 heap0 16 = some (4120, heap1) := rfl

theorem heap1_malloc : malloc 3 heap1 32 = some (4160, heap2) := rfl

theorem heap1_reachable : Reachable heap1 [4120] :=
  Reachable.alloc 3 16 4120 heap1
    (Reachable.init zero_mem 4096 (2 ^ 32) (by decide) (by decide) (by decide))
    (by decide) heap0_malloc

theorem heap2_reachable : Reachable heap2 [4160, 4120] :=
  Reachable.alloc 3 32 4160 heap2 heap1_reachable (by decide) heap1_malloc

/-! ## The growth path of `malloc` -/

/-- C3 (amended): for a request `size > 0` with header size + `size` below
`2 ^ 63`, a call of `malloc` that takes the growth path returns, and when the
returned pointer `p` is not null the break after the call is at least
`p + size`: the break was raised by exactly header size + `size` and `p` is
the old break + header size. -/
theorem malloc_growth_covers_request (s : State) (size fuel : Nat) (hsize : 0 < size)
    (hsmall : sizeof_header_t + size < 2 ^ 63)
    (hmiss : get_free_block fuel s size = some 0) :
    ∃ p s1, malloc fuel s size = some (p, s1) ∧
      (p ≠ 0 → p + size ≤ s1.brk ∧ s1.brk = s.brk + (sizeof_header_t + size) ∧
        p = s.brk + sizeof_header_t) := by
  by_cases hfail : (sbrk s ((sizeof_header_t + size) % 2 ^ 64)).1 = SBRK_FAILED
  · refine ⟨0, (sbrk s ((sizeof_header_t + size) % 2 ^ 64)).2, ?_, fun h => absurd rfl h⟩
    have hne : size ≠ 0 := by omega
    simp only [malloc, if_neg hne, hmiss, ne_eq, not_true_eq_false, if_false, hfail, if_true]
  · obtain ⟨s1, hm, hbrk, _⟩ := malloc_grow_core hsize hsmall hmiss hfail
    refine ⟨_, s1, hm, fun _ => ⟨?_, ?_, rfl⟩⟩
    · omega
    · omega

theorem malloc_growth_covers_request_witness :
    ∃ p s1, malloc 3 heap1 32 = some (p, s1) ∧
      (p ≠ 0 → p + 32 ≤ s1.brk ∧ s1.brk = heap1.brk + (sizeof_header_t + 32) ∧
        p = heap1.brk + sizeof_header_t) :=
  malloc_growth_covers_request heap1 32 3 (by decide) (by decide) (by decide)

/-- C3 as stated fails: (1) for `size = 2 ^ 64 - 1` the sum header size +
size wraps to 23, the growth path is taken on the empty heap and `malloc`
returns the non-null pointer 4120, but the break after the call is 4119,
below `p + size`; (2) for `size = 2 ^ 64 - 25` the sum is `2 ^ 64 - 1`, which
`sbrk` reads as the increment `-1`: after one earlier block the growth path
returns the non-null pointer 4160 and the break goes down from 4136 to 4135. -/
theorem malloc_wraps_on_huge_size :
    (get_free_block 3 heap0 (2 ^ 64 - 1) = some 0 ∧
      (malloc 3 heap0 (2 ^ 64 - 1)).map (fun r => (r.1, r.2.brk)) = some (4120, 4119) ∧
      ¬ (4120 + (2 ^ 64 - 1) ≤ 4119)) ∧
    (get_free_block 3 heap1 (2 ^ 64 - 25) = some 0 ∧ heap1.brk = 4136 ∧
      (malloc 3 heap1 (2 ^ 64 - 25)).map (fun r => (r.1, r.2.brk)) = some (4160, 4135) ∧
      ¬ (4160 + (2 ^ 64 - 25) ≤ 4135)) := by
  decide

/-! ## Heap-top reclamation in reachable states -/

/-- C9 (amended): in a state reached from the empty heap by valid calls whose
`malloc` requests keep header size + request below `2 ^ 63`, `free(p)` on a
live pointer whose payload end `p + size` equals the break returns (fuel for
one step per header is enough);
afterwards the break is lower by exactly header size + the recorded size, the
freed header, which was the last of the list, is no longer in the list, the
other headers keep their order, the former predecessor is the tail with
`next` null and its other fields kept, every other header is unchanged, and
`head` and `tail` are both null when the block was the only one (`head` is
kept otherwise). -/
theorem free_heap_top_reclaims (s : State) (live : List Nat) (p : Nat)
    (hr : Reachable s live) (hp : p ∈ live)
    (hend : p + (s.mem (p - sizeof_header_t)).size = s.brk) :
    ∃ L, IsList s.mem s.head (L ++ [p - sizeof_header_t]) ∧
      ∀ fuel, L.length + 1 ≤ fuel →
        ∃ s1, free fuel s p = some s1 ∧
          s1.brk + (sizeof_header_t + (s.mem (p - sizeof_header_t)).size) = s.brk ∧
          IsList s1.mem s1.head L ∧ (p - sizeof_header_t) ∉ L ∧
          s1.tail = L.getLast?.getD 0 ∧
          s1.head = (if L = [] then 0 else s.head) ∧
          (∀ a, L.getLast? ≠ some a → s1.mem a = s.mem a) ∧
          (∀ t, L.getLast? = some t → s1.mem t = { s.mem t with next := 0 }) := by
  have h24 : sizeof_header_t = 24 := rfl
  obtain ⟨l, hinv, hlive⟩ := reachable_inv hr
  obtain ⟨h, hh, e⟩ := hlive p hp
  subst e
  rw [Nat.add_sub_cancel] at hend ⊢
  have hend2 : h + sizeof_header_t + (s.mem h).size = s.brk := hend
  obtain ⟨L, hL, hrun⟩ := free_reclaim_spec hinv hh hend2
  refine ⟨L, ?_, ?_⟩
  · rw [← hL]
    exact hinv.list
  · intro fuel hf
    obtain ⟨s1, hf1, hinv1, hbrk, _, _, htl, hhd, hmem, hpred⟩ :=
      hrun fuel (by rw [hL]; simpa using hf)
    refine ⟨s1, hf1, ?_, hinv1.list, ?_, htl, hhd, hmem, hpred⟩
    · rw [hbrk]
      omega
    · intro hmem2
      have hnd := laid_nodup hinv.laid
      rw [hL] at hnd
      exact (List.nodup_append.1 hnd).2.2 hmem2 (by simp)

theorem free_heap_top_reclaims_witness :
    ∃ L, IsList heap2.mem heap2.head (L ++ [4160 - sizeof_header_t]) ∧
      ∀ fuel, L.length + 1 ≤ fuel →
        ∃ s1, free fuel heap2 4160 = some s1 ∧
          s1.brk + (sizeof_header_t + (heap2.mem (4160 - sizeof_header_t)).size)
            = heap2.brk ∧
          IsList s1.mem s1.head L ∧ (4160 - sizeof_header_t) ∉ L ∧
          s1.tail = L.getLast?.getD 0 ∧
          s1.head = (if L = [] then 0 else heap2.head) ∧
          (∀ a, L.getLast? ≠ some a → s1.mem a = heap2.mem a) ∧
          (∀ t, L.getLast? = some t → s1.mem t = { heap2.mem t with next := 0 }) :=
  free_heap_top_reclaims heap2 [4160, 4120] 4160 heap2_reachable (by decide) (by decide)

/-! ## Reuse -/

theorem malloc_hit_spec {s : State} {n fuel h : Nat} (hn : 0 < n)
    (hg : get_free_block fuel s n = some h) (hh : h ≠ 0) :
    malloc fuel s n =
      some (h + sizeof_header_t,
        { s with mem := store s.mem h { s.mem h with size := n } }) := by
  have hne : n ≠ 0 := by omega
  simp only [malloc, if_neg hne, hg, ne_eq, hh, not_false_eq_true, if_true]

theorem heap2_free : free 3 heap2 4120 = some heap3 := rfl

theorem heap3_malloc : malloc 3 heap3 8 = some (4120, heap4) := rfl

theorem heap3_reachable : Reachable heap3 [4160] :=
  Reachable.dealloc 3 4120 heap3 heap2_reachable (Or.inr (by decide)) heap2_free

theorem heap4_reachable : Reachable heap4 [4120, 4160] :=
  Reachable.alloc 3 8 4120 heap4 heap3_reachable (by decide) heap3_malloc

/-- C2, evaluated: in the state after `malloc(16); malloc(32); free(4120)`
the scan for 8 bytes hits the header at 4096, which is free with size 16;
`malloc(8)` returns its payload pointer 4120 and sets its size to 8, but the
header's `is_free` flag is still set after the call. -/
theorem malloc_reuse_leaves_flag_set :
    get_free_block 3 heap3 8 = some 4096 ∧
      (heap3.mem 4096).is_free = true ∧ (heap3.mem 4096).size = 16 ∧
      (malloc 3 heap3 8).map
          (fun r => (r.1, (r.2.mem 4096).size, (r.2.mem 4096).is_free))
        = some (4096 + sizeof_header_t, 8, true) := by
  decide

/-- C1, evaluated: after `malloc(16)` (4120), `malloc(32)` (4160),
`free(4120)` and `malloc(8)` (4120 again, by reuse) the pointers 4120 and
4160 are live; a further `malloc(8)` returns 4120 once more, a pointer that
is live at that moment. -/
theorem malloc_returns_live_pointer :
    Reachable heap4 [4120, 4160] ∧ sizeof_header_t + 8 < 2 ^ 64 ∧
      (malloc 3 heap4 8).map (fun r => r.1) = some 4120 ∧ 4120 ∈ [4120, 4160] :=
  ⟨heap4_reachable, by decide, by decide, by decide⟩

/-! ## Allocation with no free block in the list -/

theorem sbrk_grow_ok {s : State} {t : Nat} (ht0 : 0 < t) (ht : t < 2 ^ 63)
    (hroom : s.brk + t ≤ s.hi) (hb : s.brk ≠ SBRK_FAILED) :
    (sbrk s t).1 ≠ SBRK_FAILED := by
  have h0 : t ≠ 0 := by omega
  unfold sbrk
  rw [if_neg h0, if_pos ht, if_pos hroom]
  exact hb

theorem sbrk_grow_denied {s : State} {t : Nat} (ht0 : 0 < t) (ht : t < 2 ^ 63)
    (hroom : ¬ s.brk + t ≤ s.hi) : sbrk s t = (SBRK_FAILED, s) := by
  have h0 : t ≠ 0 := by omega
  unfold sbrk
  rw [if_neg h0, if_pos ht, if_neg hroom]

/-- With no free header in the list and room below `hi`, `malloc` grows the
heap: the new block starts at the old break. -/
theorem malloc_fresh {s : State} {l : List Nat} {n fuel : Nat} (hinv : Inv s l)
    (hnf : ∀ a ∈ l, (s.mem a).is_free = false) (hn : 0 < n)
    (hsmall : sizeof_header_t + n < 2 ^ 63) (hf : l.length < fuel)
    (hroom : s.brk + (sizeof_header_t + n) ≤ s.hi) :
    ∃ s1, malloc fuel s n = some (s.brk + sizeof_header_t, s1) ∧ Inv s1 (l ++ [s.brk]) ∧
      (∀ a ∈ l ++ [s.brk], (s1.mem a).is_free = false) ∧
      s1.brk = s.brk + sizeof_header_t + n ∧ s1.hi = s.hi ∧ s1.lo = s.lo ∧
      (s1.mem s.brk).size = n ∧
      (∀ a, a < s.brk → (s1.mem a).size = (s.mem a).size) := by
  have hmiss : get_free_block fuel s n = some 0 :=
    get_free_block_miss hinv.list hf (fun a ha hc => by
      rw [hnf a ha] at hc
      exact Bool.false_ne_true hc.1)
  have hmod : (sizeof_header_t + n) % 2 ^ 64 = sizeof_header_t + n :=
    Nat.mod_eq_of_lt (by omega)
  have hok : (sbrk s ((sizeof_header_t + n) % 2 ^ 64)).1 ≠ SBRK_FAILED := by
    rw [hmod]
    exact sbrk_grow_ok (by omega) hsmall hroom (inv_brk_ne hinv)
  obtain ⟨s1, hm, hbrk, htl, hhead, hlo, hhi, hroom2, hmem⟩ :=
    malloc_grow_core hn hsmall hmiss hok
  have hinv1 := inv_grow hinv hsmall hbrk htl hhead hlo hhi hroom2 hmem
  have hlt : ∀ a ∈ l, a < s.brk := by
    intro a ha
    have := laid_end_le hinv.laid a ha
    have h24 : sizeof_header_t = 24 := rfl
    omega
  have htb : s.tail ≠ s.brk := by
    intro e
    rcases nil_or_snoc l with hnil | ⟨L, t, hL⟩
    · have h1 := hinv.tail_last
      rw [hnil] at h1
      have h2 := hinv.lo_pos
      have h3 := hinv.lo_brk
      simp at h1
      omega
    · have h1 := hinv.tail_last
      rw [hL] at h1
      simp at h1
      have := hlt t (by rw [hL]; simp)
      omega
  have hnew : s1.mem s.brk = { size := n, is_free := false, next := 0 } := by
    rw [hmem]
    exact grow_mem_new s.mem s.brk s.tail n htb
  refine ⟨s1, hm, hinv1, ?_, hbrk, hhi, hlo, ?_, ?_⟩
  · intro a ha
    rcases List.mem_append.1 ha with h1 | h1
    · have hne : a ≠ s.brk := Nat.ne_of_lt (hlt a h1)
      rw [hmem, (grow_mem_size s.mem s.brk s.tail n hne).2]
      exact hnf a h1
    · have : a = s.brk := by simpa using h1
      rw [this, hnew]
  · rw [hnew]
  · intro a ha
    rw [hmem]
    exact (grow_mem_size s.mem s.brk s.tail n (Nat.ne_of_lt ha)).1

/-- With no free header in the list and no room below `hi`, `malloc` returns
null and changes nothing. -/
theorem malloc_denied {s : State} {l : List Nat} {n fuel : Nat} (hinv : Inv s l)
    (hnf : ∀ a ∈ l, (s.mem a).is_free = false) (hn : 0 < n)
    (hsmall : sizeof_header_t + n < 2 ^ 63) (hf : l.length < fuel)
    (hroom : ¬ s.brk + (sizeof_header_t + n) ≤ s.hi) :
    malloc fuel s n = some (0, s) := by
  have hmiss : get_free_block fuel s n = some 0 :=
    get_free_block_miss hinv.list hf (fun a ha hc => by
      rw [hnf a ha] at hc
      exact Bool.false_ne_true hc.1)
  have hmod : (sizeof_header_t + n) % 2 ^ 64 = sizeof_header_t + n :=
    Nat.mod_eq_of_lt (by omega)
  have hne : n ≠ 0 := by omega
  simp only [malloc, if_neg hne, hmiss, hmod, sbrk_grow_denied (by omega) hsmall hroom]
  simp

theorem malloc_seq_cons {fuel : Nat} {s s1 s2 : State} {n p : Nat} {ns ps : List Nat}
    (h1 : malloc fuel s n = some (p, s1)) (h2 : malloc_seq fuel s1 ns = some (ps, s2)) :
    malloc_seq fuel s (n :: ns) = some (p :: ps, s2) := by
  simp only [malloc_seq, h1, h2]

/-- A run of `malloc` calls from a state in which no header is free: every
call returns, and when all of them return non-null pointers the blocks are
laid one after the other above the starting break. -/
theorem malloc_seq_fresh (fuel : Nat) :
    ∀ (ns : List Nat) (s : State) (l : List Nat), Inv s l →
      (∀ a ∈ l, (s.mem a).is_free = false) →
      (∀ n ∈ ns, 0 < n ∧ sizeof_header_t + n < 2 ^ 63) →
      l.length + ns.length ≤ fuel →
      ∃ ps s1, malloc_seq fuel s ns = some (ps, s1) ∧ ps.length = ns.length ∧
        s.brk ≤ s1.brk ∧ (∀ a, a < s.brk → (s1.mem a).size = (s.mem a).size) ∧
        ((∀ p ∈ ps, p ≠ 0) →
          List.Pairwise (fun x y : Nat × Nat => x.1 + x.2 ≤ y.1) (ps.zip ns) ∧
          ∀ x ∈ ps.zip ns, s.brk + sizeof_header_t ≤ x.1 ∧ x.1 + x.2 ≤ s1.brk ∧
            (s1.mem (x.1 - sizeof_header_t)).size = x.2)
  | [], s, l, _, _, _, _ =>
    ⟨[], s, rfl, rfl, le_refl _, fun _ _ => rfl, fun _ =>
      ⟨List.Pairwise.nil, fun x hx => by simp at hx⟩⟩
  | n :: ns, s, l, hinv, hnf, hns, hf => by
    have h24 : sizeof_header_t = 24 := rfl
    obtain ⟨hn, hsmall⟩ := hns n (List.mem_cons_self n ns)
    have hns2 : ∀ m ∈ ns, 0 < m ∧ sizeof_header_t + m < 2 ^ 63 :=
      fun m hm => hns m (List.mem_cons_of_mem n hm)
    have hlen : l.length + (ns.length + 1) ≤ fuel := by simpa using hf
    by_cases hroom : s.brk + (sizeof_header_t + n) ≤ s.hi
    · obtain ⟨s1, hm, hinv1, hnf1, hbrk, _, _, hsz, hold⟩ :=
        malloc_fresh hinv hnf hn hsmall (show l.length < fuel by omega) hroom
      obtain ⟨ps, s2, hseq, hlen2, hle, hkeep, hall⟩ :=
        malloc_seq_fresh fuel ns s1 (l ++ [s.brk]) hinv1 hnf1 hns2 (by simp; omega)
      refine ⟨(s.brk + sizeof_header_t) :: ps, s2, malloc_seq_cons hm hseq, by simp [hlen2],
        by omega, ?_, ?_⟩
      · intro a ha
        rw [hkeep a (by omega), hold a ha]
      · intro hnz
        obtain ⟨hpw, hmem⟩ := hall (fun p hp => hnz p (List.mem_cons_of_mem _ hp))
        constructor
        · rw [List.zip_cons_cons]
          refine List.Pairwise.cons ?_ hpw
          intro y hy
          have := (hmem y hy).1
          show s.brk + sizeof_header_t + n ≤ y.1
          omega
        · intro x hx
          rw [List.zip_cons_cons] at hx
          rcases List.mem_cons.1 hx with e | hx2
          · subst e
            refine ⟨le_refl _, ?_, ?_⟩
            · show s.brk + sizeof_header_t + n ≤ s2.brk
              omega
            · show (s2.mem (s.brk + sizeof_header_t - sizeof_header_t)).size = n
              rw [Nat.add_sub_cancel, hkeep s.brk (by omega), hsz]
          · obtain ⟨k1, k2, k3⟩ := hmem x hx2
            exact ⟨by omega, k2, k3⟩
    · have hm := malloc_denied hinv hnf hn hsmall (show l.length < fuel by omega) hroom
      obtain ⟨ps, s2, hseq, hlen2, hle, hkeep, _⟩ :=
        malloc_seq_fresh fuel ns s l hinv hnf hns2 (by omega)
      refine ⟨0 :: ps, s2, malloc_seq_cons hm hseq, by simp [hlen2], hle, hkeep, ?_⟩
      intro hnz
      exact absurd rfl (hnz 0 (List.mem_cons_self 0 ps))

/-- C8: from the empty heap, a run of `malloc` calls with sizes `n_i > 0`
that do not wrap (header size + `n_i` is below `2 ^ 63`, so it wraps neither
in `size_t` nor as the signed increment handed to `sbrk`) and no `free` in
between returns for every call; when every returned pointer is non-null, each earlier
region `[p_i, p_i + n_i)` ends at or before the start of every later one, so
the regions are pairwise disjoint, each region lies between the initial break
and the final break, and the size recorded in each block's header is the
requested `n_i`. -/
theorem malloc_seq_no_overlap (mem : Nat → header_t) (B hi fuel : Nat) (ns : List Nat)
    (hB : 0 < B) (hle : B ≤ hi) (hhi : hi < 2 ^ 64 - 1)
    (hns : ∀ n ∈ ns, 0 < n ∧ sizeof_header_t + n < 2 ^ 63) (hf : ns.length ≤ fuel) :
    ∃ ps s1, malloc_seq fuel (empty_heap mem B hi) ns = some (ps, s1) ∧
      ps.length = ns.length ∧
      ((∀ p ∈ ps, p ≠ 0) →
        List.Pairwise (fun x y : Nat × Nat =>
            x.1 + x.2 ≤ y.1 ∧ ∀ z, ¬ ((x.1 ≤ z ∧ z < x.1 + x.2) ∧ (y.1 ≤ z ∧ z < y.1 + y.2)))
          (ps.zip ns) ∧
        ∀ x ∈ ps.zip ns, B ≤ x.1 ∧ x.1 + x.2 ≤ s1.brk ∧
          (s1.mem (x.1 - sizeof_header_t)).size = x.2) := by
  obtain ⟨ps, s1, hseq, hlen, _, _, hall⟩ :=
    malloc_seq_fresh fuel ns (empty_heap mem B hi) [] (inv_empty mem hB hle hhi)
      (fun a ha => by simp at ha) hns (by simpa using hf)
  refine ⟨ps, s1, hseq, hlen, fun hnz => ?_⟩
  obtain ⟨hpw, hmem⟩ := hall hnz
  constructor
  · refine List.Pairwise.imp ?_ hpw
    intro x y hxy
    refine ⟨hxy, fun z hz => ?_⟩
    omega
  · intro x hx
    obtain ⟨k1, k2, k3⟩ := hmem x hx
    refine ⟨?_, k2, k3⟩
    have : (empty_heap mem B hi).brk = B := rfl
    omega

theorem malloc_seq_no_overlap_witness :
    ∃ ps s1, malloc_seq 3 (empty_heap zero_mem 4096 (2 ^ 32)) [16, 32] = some (ps, s1) ∧
      ps.length = [16, 32].length ∧
      ((∀ p ∈ ps, p ≠ 0) →
        List.Pairwise (fun x y : Nat × Nat =>
            x.1 + x.2 ≤ y.1 ∧ ∀ z, ¬ ((x.1 ≤ z ∧ z < x.1 + x.2) ∧ (y.1 ≤ z ∧ z < y.1 + y.2)))
          (ps.zip [16, 32]) ∧
        ∀ x ∈ ps.zip [16, 32], 4096 ≤ x.1 ∧ x.1 + x.2 ≤ s1.brk ∧
          (s1.mem (x.1 - sizeof_header_t)).size = x.2) :=
  malloc_seq_no_overlap zero_mem 4096 (2 ^ 32) 3 [16, 32] (by decide) (by decide) (by decide)
    (by decide) (by decide)

/-! ## Allocation after a heap-top reclamation -/

/-- C10 (amended): from the empty heap with break `B`, for sizes `a`, `b`,
`c` > 0 with header size + size below `2 ^ 63` and room for the growth, after
`p1 = malloc(a)`, `p2 = malloc(b)` and `free(p2)` the break is back at
`p2 - header size`, and a following `malloc(c)` grows the heap again from
there and returns exactly `p2`, the start of the payload of the reclaimed
block; its region starts after the end of the live region of `p1`. -/
theorem malloc_after_reclaim_returns_same_pointer (mem : Nat → header_t)
    (B hi a b c fuel : Nat) (hB : 0 < B) (hhi : hi < 2 ^ 64 - 1)
    (ha : 0 < a) (hb : 0 < b) (hc : 0 < c)
    (sa : sizeof_header_t + a < 2 ^ 63) (sb : sizeof_header_t + b < 2 ^ 63)
    (sc : sizeof_header_t + c < 2 ^ 63)
    (hroom1 : B + (sizeof_header_t + a) + (sizeof_header_t + b) ≤ hi)
    (hroom2 : B + (sizeof_header_t + a) + (sizeof_header_t + c) ≤ hi)
    (hf : 2 ≤ fuel) :
    ∃ s1 s2 s3 s4 p1 p2,
      p1 = B + sizeof_header_t ∧ p2 = p1 + a + sizeof_header_t ∧
      malloc fuel (empty_heap mem B hi) a = some (p1, s1) ∧
      malloc fuel s1 b = some (p2, s2) ∧
      free fuel s2 p2 = some s3 ∧
      s3.brk + (sizeof_header_t + b) = s2.brk ∧ s3.brk = p2 - sizeof_header_t ∧
      malloc fuel s3 c = some (p2, s4) ∧
      (p2 - sizeof_header_t ≤ p2 ∧ p2 < p2 + b) ∧ p1 + a ≤ p2 := by
  have h24 : sizeof_header_t = 24 := rfl
  have hinv0 : Inv (empty_heap mem B hi) [] := inv_empty mem hB (by omega) hhi
  have hb0 : (empty_heap mem B hi).brk = B := rfl
  have hh0 : (empty_heap mem B hi).hi = hi := rfl
  obtain ⟨s1, hm1, hinv1, hnf1, hbrk1, hhi1, _, _, _⟩ :=
    malloc_fresh hinv0 (fun a ha => by simp at ha) ha sa
      (show ([] : List Nat).length < fuel by simp; omega)
      (by rw [hb0, hh0]; omega)
  rw [hb0] at hm1 hinv1 hnf1 hbrk1
  rw [hh0] at hhi1
  simp only [List.nil_append] at hinv1 hnf1
  obtain ⟨s2, hm2, hinv2, hnf2, hbrk2, hhi2, _, hsz2, _⟩ :=
    malloc_fresh hinv1 hnf1 hb sb (show [B].length < fuel by simp; omega)
      (by rw [hbrk1, hhi1]; omega)
  have hend : s1.brk + sizeof_header_t + (s2.mem s1.brk).size = s2.brk := by
    rw [hsz2, hbrk2]
  obtain ⟨L, hL, hrun⟩ := free_reclaim_spec hinv2 (by simp) hend
  have hLB : L = [B] := (List.append_left_inj [s1.brk]).1 hL.symm
  subst hLB
  obtain ⟨s3, hf3, hinv3, hbrk3, _, hhi3, _, _, _, hpred⟩ :=
    hrun fuel (by simp; omega)
  have hfree3 : (s3.mem B).is_free = false := by
    rw [hpred B (by simp)]
    exact hnf2 B (by simp)
  obtain ⟨s4, hm4, _⟩ :=
    malloc_fresh hinv3 (fun x hx => by
        have : x = B := by simpa using hx
        rw [this]
        exact hfree3) hc sc (show [B].length < fuel by simp; omega)
      (by rw [hbrk3, hhi3, hhi2, hbrk1, hhi1]; omega)
  have hp2 : s1.brk + sizeof_header_t = B + sizeof_header_t + a + sizeof_header_t := by
    rw [hbrk1]
  rw [hp2] at hm2 hf3
  rw [hbrk3, hp2] at hm4
  refine ⟨s1, s2, s3, s4, _, _, rfl, rfl, hm1, hm2, hf3, ?_, ?_, hm4, ⟨?_, ?_⟩, ?_⟩
  · rw [hbrk3, hbrk2]
    omega
  · rw [hbrk3, hbrk1]
    omega
  · omega
  · omega
  · omega

theorem malloc_after_reclaim_returns_same_pointer_witness :
    ∃ s1 s2 s3 s4 p1 p2,
      p1 = 4096 + sizeof_header_t ∧ p2 = p1 + 16 + sizeof_header_t ∧
      malloc 3 (empty_heap zero_mem 4096 (2 ^ 32)) 16 = some (p1, s1) ∧
      malloc 3 s1 32 = some (p2, s2) ∧
      free 3 s2 p2 = some s3 ∧
      s3.brk + (sizeof_header_t + 32) = s2.brk ∧ s3.brk = p2 - sizeof_header_t ∧
      malloc 3 s3 8 = some (p2, s4) ∧
      (p2 - sizeof_header_t ≤ p2 ∧ p2 < p2 + 32) ∧ p1 + 16 ≤ p2 :=
  malloc_after_reclaim_returns_same_pointer zero_mem 4096 (2 ^ 32) 16 32 8 3
    (by decide) (by decide) (by decide) (by decide) (by decide) (by decide) (by decide)
    (by decide) (by decide) (by decide) (by decide)

/-- C10 as stated fails: from the empty heap at 4096, `malloc(16)` returns
4120, `malloc(32)` returns `p2 = 4160`, `free(4160)` lowers the break to 4136,
and the following `malloc(8)` returns 4160, which lies inside the reclaimed
range `[p2 - header size, p2 + 32) = [4136, 4192)`. -/
theorem malloc_after_reclaim_inside_range :
    malloc 3 heap0 16 = some (4120, heap1) ∧ malloc 3 heap1 32 = some (4160, heap2) ∧
      (free 3 heap2 4160).map (fun s => s.brk) = some 4136 ∧
      ((free 3 heap2 4160).bind (fun s => malloc 3 s 8)).map (fun r => r.1) = some 4160 ∧
      (4160 - sizeof_header_t ≤ 4160 ∧ 4160 < 4160 + 32) :=
  ⟨rfl, rfl, by decide, by decide, by decide⟩

/-! ## Freeing an interior block -/

/-- C11: from the empty heap with break `B` and room for the growth,
`malloc(16)` returns `p1 = B + header size`; `malloc(32)` returns `p2` above
`p1`; `free(p2)` lowers the break by exactly header size + 32 and leaves the
list with the header of `p1` alone; `p1` then ends at the break, so
`free(p1)` reclaims too and leaves `head` and `tail` null and the break at
`B`; a following `malloc(8)` finds no block to reuse (the scan returns null),
grows the heap and returns a pointer whose header, at the old break, is the
only element of the list. -/
theorem scenario_trace (mem : Nat → header_t) (B hi fuel : Nat) (hB : 0 < B)
    (hhi : hi < 2 ^ 64 - 1)
    (hroom : B + (sizeof_header_t + 16) + (sizeof_header_t + 32) ≤ hi) (hf : 2 ≤ fuel) :
    ∃ s1 s2 s3 s4 s5 p1 p2,
      p1 = B + sizeof_header_t ∧ malloc fuel (empty_heap mem B hi) 16 = some (p1, s1) ∧
      malloc fuel s1 32 = some (p2, s2) ∧ p1 < p2 ∧ p2 ≠ p1 ∧
      free fuel s2 p2 = some s3 ∧ s3.brk + (sizeof_header_t + 32) = s2.brk ∧
      IsList s3.mem s3.head [p1 - sizeof_header_t] ∧
      p1 + (s3.mem (p1 - sizeof_header_t)).size = s3.brk ∧
      free fuel s3 p1 = some s4 ∧ s4.head = 0 ∧ s4.tail = 0 ∧ s4.brk = B ∧
      get_free_block fuel s4 8 = some 0 ∧
      malloc fuel s4 8 = some (s4.brk + sizeof_header_t, s5) ∧
      s5.brk = s4.brk + (sizeof_header_t + 8) ∧ IsList s5.mem s5.head [s4.brk] := by
  have h24 : sizeof_header_t = 24 := rfl
  have hinv0 : Inv (empty_heap mem B hi) [] := inv_empty mem hB (by omega) hhi
  have hb0 : (empty_heap mem B hi).brk = B := rfl
  have hh0 : (empty_heap mem B hi).hi = hi := rfl
  obtain ⟨s1, hm1, hinv1, hnf1, hbrk1, hhi1, _, hsz1, _⟩ :=
    malloc_fresh hinv0 (fun a ha => by simp at ha) (show 0 < 16 by decide) (by decide)
      (show ([] : List Nat).length < fuel by simp; omega)
      (by rw [hb0, hh0]; omega)
  rw [hb0] at hm1 hinv1 hnf1 hbrk1 hsz1
  rw [hh0] at hhi1
  simp only [List.nil_append] at hinv1 hnf1
  obtain ⟨s2, hm2, hinv2, hnf2, hbrk2, hhi2, _, hsz2, hkeep2⟩ :=
    malloc_fresh hinv1 hnf1 (show 0 < 32 by decide) (by decide)
      (show [B].length < fuel by simp; omega)
      (by rw [hbrk1, hhi1]; omega)
  have hend2 : s1.brk + sizeof_header_t + (s2.mem s1.brk).size = s2.brk := by
    rw [hsz2, hbrk2]
  obtain ⟨L, hL, hrun⟩ := free_reclaim_spec hinv2 (by simp) hend2
  have hLB : L = [B] := (List.append_left_inj [s1.brk]).1 hL.symm
  subst hLB
  obtain ⟨s3, hf3, hinv3, hbrk3, _, hhi3, _, _, _, hpred3⟩ := hrun fuel (by simp; omega)
  have hsz3 : (s3.mem B).size = 16 := by
    rw [hpred3 B (by simp)]
    show (s2.mem B).size = 16
    rw [hkeep2 B (by omega), hsz1]
  have hend3 : B + sizeof_header_t + (s3.mem B).size = s3.brk := by
    rw [hsz3, hbrk3, hbrk1]
  obtain ⟨L2, hL2, hrun2⟩ := free_reclaim_spec hinv3 (by simp) hend3
  have hL2nil : L2 = [] := (List.append_left_inj [B]).1 (by simpa using hL2.symm)
  subst hL2nil
  obtain ⟨s4, hf4, hinv4, hbrk4, _, hhi4, htl4, hhd4, _, _⟩ := hrun2 fuel (by simp; omega)
  have hmiss4 : get_free_block fuel s4 8 = some 0 :=
    get_free_block_miss hinv4.list (show ([] : List Nat).length < fuel by simp; omega)
      (fun a ha => by simp at ha)
  obtain ⟨s5, hm5, hinv5, _, hbrk5, _⟩ :=
    malloc_fresh hinv4 (fun a ha => by simp at ha) (show 0 < 8 by decide) (by decide)
      (show ([] : List Nat).length < fuel by simp; omega)
      (by rw [hbrk4, hhi4, hhi3, hhi2, hhi1]; omega)
  simp only [List.nil_append] at hinv5
  have hp2 : s1.brk + sizeof_header_t = B + sizeof_header_t + 16 + sizeof_header_t := by
    rw [hbrk1]
  refine ⟨s1, s2, s3, s4, s5, _, _, rfl, hm1, hm2, ?_, ?_, hf3, ?_, ?_, ?_, hf4, ?_, ?_, hbrk4,
    hmiss4, hm5, ?_, hinv5.list⟩
  · omega
  · omega
  · rw [hbrk3, hbrk2]
    omega
  · rw [Nat.add_sub_cancel]
    exact hinv3.list
  · rw [Nat.add_sub_cancel]
    exact hend3
  · rw [hhd4]
    simp
  · rw [htl4]
    simp
  · rw [hbrk5]
    omega

theorem scenario_trace_witness :
    ∃ s1 s2 s3 s4 s5 p1 p2,
      p1 = 4096 + sizeof_header_t ∧
      malloc 3 (empty_heap zero_mem 4096 (2 ^ 32)) 16 = some (p1, s1) ∧
      malloc 3 s1 32 = some (p2, s2) ∧ p1 < p2 ∧ p2 ≠ p1 ∧
      free 3 s2 p2 = some s3 ∧ s3.brk + (sizeof_header_t + 32) = s2.brk ∧
      IsList s3.mem s3.head [p1 - sizeof_header_t] ∧
      p1 + (s3.mem (p1 - sizeof_header_t)).size = s3.brk ∧
      free 3 s3 p1 = some s4 ∧ s4.head = 0 ∧ s4.tail = 0 ∧ s4.brk = 4096 ∧
      get_free_block 3 s4 8 = some 0 ∧
      malloc 3 s4 8 = some (s4.brk + sizeof_header_t, s5) ∧
      s5.brk = s4.brk + (sizeof_header_t + 8) ∧ IsList s5.mem s5.head [s4.brk] :=
  scenario_trace zero_mem 4096 (2 ^ 32) 3 (by decide) (by decide) (by decide) (by decide)

/-! ## Layout facts that follow from the invariant -/

theorem laid_split {mem : Nat → header_t} {brk h : Nat} {post : List Nat} :
    ∀ {pre : List Nat}, Laid mem brk (pre ++ h :: post) →
      h + sizeof_header_t + (mem h).size ≤ post.head?.getD brk ∧
        ∀ a ∈ pre, a + sizeof_header_t + (mem a).size ≤ h
  | [], hl => ⟨hl.1, fun a ha => by simp at ha⟩
  | b :: pre, hl => by
    have hb := (laid_bound hl).1
    obtain ⟨k1, k2⟩ := @laid_split mem brk h post pre hl.2
    refine ⟨k1, ?_⟩
    intro a ha
    rcases List.mem_cons.1 ha with e | ha2
    · rw [e]
      exact hb h (by simp)
    · exact k2 a ha2

theorem laid_pairwise {mem : Nat → header_t} {brk : Nat} :
    ∀ {l : List Nat}, Laid mem brk l → l.Pairwise (fun a b => a < b)
  | [], _ => List.Pairwise.nil
  | a :: l, h => by
    refine List.Pairwise.cons ?_ (laid_pairwise h.2)
    intro c hc
    have := (laid_bound h).1 c hc
    have h24 : sizeof_header_t = 24 := rfl
    omega

theorem isList_next {mem : Nat → header_t} {a : Nat} {post : List Nat} :
    ∀ {pre : List Nat} {p : Nat}, IsList mem p (pre ++ a :: post) →
      (mem a).next = post.head?.getD 0
  | [], p, hl => by
    obtain ⟨_, _, ht⟩ := hl
    cases post with
    | nil => exact ht
    | cons b post => exact ht.1
  | _ :: pre, _, hl => @isList_next mem a post pre _ hl.2.2

/-- The three ways a call of `malloc` can end in a state with a well laid out
list: nothing done (null returned), a block reused, or the heap grown. -/
theorem malloc_cases {s s1 : State} {l : List Nat} {n fuel p : Nat} (hinv : Inv s l)
    (hsmall : sizeof_header_t + n < 2 ^ 63) (hm : malloc fuel s n = some (p, s1)) :
    (p = 0 ∧ s1 = s) ∨
    (0 < n ∧ ∃ h ∈ l, get_free_block fuel s n = some h ∧ h ≠ 0 ∧
      (s.mem h).is_free = true ∧ n ≤ (s.mem h).size ∧ p = h + sizeof_header_t ∧
      s1 = { s with mem := store s.mem h { s.mem h with size := n } }) ∨
    (0 < n ∧ get_free_block fuel s n = some 0 ∧ p = s.brk + sizeof_header_t ∧
      s1.brk = s.brk + sizeof_header_t + n ∧ s1.tail = s.brk ∧
      s1.head = (if s.head = 0 then s.brk else s.head) ∧ s1.lo = s.lo ∧ s1.hi = s.hi ∧
      s.brk + sizeof_header_t + n ≤ s.hi ∧ s1.mem = grow_mem s.mem s.brk s.tail n) := by
  by_cases hn : n = 0
  · subst hn
    have h0 : malloc fuel s 0 = some (0, s) := by simp [malloc]
    rw [h0] at hm
    have e := Option.some.inj hm
    exact Or.inl ⟨(congrArg Prod.fst e).symm, (congrArg Prod.snd e).symm⟩
  · cases hg : get_free_block fuel s n with
    | none =>
      simp [malloc, hn, hg] at hm
    | some r =>
      by_cases hr : r = 0
      · subst hr
        by_cases hfail : (sbrk s ((sizeof_header_t + n) % 2 ^ 64)).1 = SBRK_FAILED
        · have hun := sbrk_fail_unchanged (inv_brk_ne hinv) hfail
          simp only [malloc, if_neg hn, hg, ne_eq, not_true_eq_false, if_false, hfail,
            if_true, hun] at hm
          have e := Option.some.inj hm
          exact Or.inl ⟨(congrArg Prod.fst e).symm, (congrArg Prod.snd e).symm⟩
        · obtain ⟨s2, hm2, hbrk, htail, hhead, hlo, hhi, hroom, hmem⟩ :=
            malloc_grow_core (Nat.pos_of_ne_zero hn) hsmall hg hfail
          rw [hm2] at hm
          have e := Option.some.inj hm
          have e1 : p = s.brk + sizeof_header_t := (congrArg Prod.fst e).symm
          have e2 : s1 = s2 := (congrArg Prod.snd e).symm
          subst e2
          exact Or.inr (Or.inr ⟨Nat.pos_of_ne_zero hn, rfl, e1, hbrk, htail, hhead, hlo, hhi,
            hroom, hmem⟩)
      · obtain ⟨hmem, hfree, hle⟩ := get_free_block_hit hinv.list hg hr
        rw [malloc_hit_spec (Nat.pos_of_ne_zero hn) hg hr] at hm
        have e := Option.some.inj hm
        exact Or.inr (Or.inl ⟨Nat.pos_of_ne_zero hn, r, hmem, rfl, hr, hfree, hle,
          (congrArg Prod.fst e).symm, (congrArg Prod.snd e).symm⟩)

/-- The two ways a call of `free` on the payload of a list header can end. -/
theorem free_cases {s s1 : State} {l : List Nat} {h fuel : Nat} (hinv : Inv s l)
    (hh : h ∈ l) (hf : free fuel s (h + sizeof_header_t) = some s1) :
    (h + sizeof_header_t + (s.mem h).size = s.brk ∧ ∃ L, l = L ++ [h] ∧ Inv s1 L ∧
      s1.brk = h ∧ s1.lo = s.lo ∧ s1.hi = s.hi ∧
      (∀ a, (s1.mem a).size = (s.mem a).size ∧ (s1.mem a).is_free = (s.mem a).is_free)) ∨
    (h + sizeof_header_t + (s.mem h).size ≠ s.brk ∧
      s1 = { s with mem := store s.mem h { s.mem h with is_free := true } }) := by
  by_cases hend : h + sizeof_header_t + (s.mem h).size = s.brk
  · obtain ⟨L, hL, hrun⟩ := free_reclaim_spec hinv hh hend
    obtain ⟨s2, hf2, hinv2, hbrk, hlo, hhi, _, _, hmem, hpred⟩ :=
      hrun (fuel + l.length) (by omega)
    rw [free_mono l.length hf] at hf2
    have e : s1 = s2 := Option.some.inj hf2
    subst e
    refine Or.inl ⟨hend, L, hL, hinv2, hbrk, hlo, hhi, ?_⟩
    intro a
    by_cases ha : L.getLast? = some a
    · rw [hpred a ha]
      exact ⟨rfl, rfl⟩
    · rw [hmem a ha]
      exact ⟨rfl, rfl⟩
  · have h24 : sizeof_header_t = 24 := rfl
    have hp : h + sizeof_header_t ≠ 0 := by omega
    have hc : ¬ ((h + sizeof_header_t + (s.mem h).size) % 2 ^ 64 = (sbrk s 0).1) := by
      have k0 := laid_end_le hinv.laid h hh
      have k1 := hinv.brk_hi
      have k2 := hinv.hi_lt
      rw [sbrk_query, Nat.mod_eq_of_lt (by omega)]
      exact hend
    simp only [free, if_neg hp, Nat.add_sub_cancel] at hf
    rw [if_neg hc] at hf
    exact Or.inr ⟨hend, (Option.some.inj hf).symm⟩

theorem inv_tail_ne_brk {s : State} {l : List Nat} (hinv : Inv s l) : s.tail ≠ s.brk := by
  have h24 : sizeof_header_t = 24 := rfl
  intro e
  rcases nil_or_snoc l with hnil | ⟨L, t, hL⟩
  · have h1 := hinv.tail_last
    rw [hnil] at h1
    have h2 := hinv.lo_pos
    have h3 := hinv.lo_brk
    simp at h1
    omega
  · have h1 := hinv.tail_last
    rw [hL] at h1
    simp at h1
    have := laid_end_le hinv.laid t (by rw [hL]; simp)
    omega

/-- A non-null pointer returned by `malloc(n)` is the payload of a header of
the list after the call, and that header records size `n`. -/
theorem malloc_block {s s1 : State} {l : List Nat} {n fuel p : Nat} (hinv : Inv s l)
    (hsmall : sizeof_header_t + n < 2 ^ 63) (hm : malloc fuel s n = some (p, s1))
    (hp : p ≠ 0) :
    ∃ l1 h, Inv s1 l1 ∧ h ∈ l1 ∧ p = h + sizeof_header_t ∧ (s1.mem h).size = n := by
  rcases malloc_cases hinv hsmall hm with ⟨h0, _⟩ | ⟨_, h, hh, _, _, _, hle, e1, e2⟩ |
    ⟨_, _, e1, hbrk, htl, hhd, hlo, hhi, hroom, hmem⟩
  · exact absurd h0 hp
  · subst e2
    exact ⟨l, h, inv_reuse hinv hle, hh, e1, by simp only [store_same]⟩
  · refine ⟨l ++ [s.brk], s.brk, inv_grow hinv hsmall hbrk htl hhd hlo hhi hroom hmem,
      by simp, e1, ?_⟩
    rw [hmem, grow_mem_new s.mem s.brk s.tail n (inv_tail_ne_brk hinv)]

/-! ## Invariants of the reachable states -/

/-- C13 (amended): in every state reached from the empty heap by valid calls
whose `malloc` requests keep header size + request below `2 ^ 63`, each
header's block ends at or before the next header of the list, and the last
one at or before the break; and
whenever `malloc(n)` returns a non-null pointer `p` in such a state (in
particular when it hands out again a block that was freed while interior),
the header of `p` is in the list after the call and records `n`, the region
`[p, p + n)` ends at or before the next header (or the break when none
follows), and every earlier block ends at or before the header of `p`. -/
theorem reuse_stays_inside_block (s : State) (live : List Nat) (hr : Reachable s live) :
    ∃ l, IsList s.mem s.head l ∧
      (∀ pre h post, l = pre ++ h :: post →
        h + sizeof_header_t + (s.mem h).size ≤ post.head?.getD s.brk) ∧
      (∀ fuel n p s1, sizeof_header_t + n < 2 ^ 63 → malloc fuel s n = some (p, s1) →
        p ≠ 0 →
        ∃ pre post, IsList s1.mem s1.head (pre ++ (p - sizeof_header_t) :: post) ∧
          (s1.mem (p - sizeof_header_t)).size = n ∧
          p + n ≤ post.head?.getD s1.brk ∧
          ∀ a ∈ pre, a + sizeof_header_t + (s1.mem a).size ≤ p - sizeof_header_t) := by
  obtain ⟨l, hinv, _⟩ := reachable_inv hr
  refine ⟨l, hinv.list, ?_, ?_⟩
  · intro pre h post hl
    have hlaid := hinv.laid
    rw [hl] at hlaid
    exact (laid_split hlaid).1
  · intro fuel n p s1 hsmall hm hp
    obtain ⟨l1, h, hinv1, hh, e, hsz⟩ := malloc_block hinv hsmall hm hp
    obtain ⟨pre, post, hsplit⟩ := List.append_of_mem hh
    subst e
    rw [Nat.add_sub_cancel]
    have hlaid := hinv1.laid
    rw [hsplit] at hlaid
    obtain ⟨k1, k2⟩ := laid_split hlaid
    refine ⟨pre, post, ?_, hsz, ?_, k2⟩
    · rw [← hsplit]
      exact hinv1.list
    · rw [hsz] at k1
      exact k1

theorem reuse_stays_inside_block_witness :
    ∃ l, IsList heap3.mem heap3.head l ∧
      (∀ pre h post, l = pre ++ h :: post →
        h + sizeof_header_t + (heap3.mem h).size ≤ post.head?.getD heap3.brk) ∧
      (∀ fuel n p s1, sizeof_header_t + n < 2 ^ 63 → malloc fuel heap3 n = some (p, s1) →
        p ≠ 0 →
        ∃ pre post, IsList s1.mem s1.head (pre ++ (p - sizeof_header_t) :: post) ∧
          (s1.mem (p - sizeof_header_t)).size = n ∧
          p + n ≤ post.head?.getD s1.brk ∧
          ∀ a ∈ pre, a + sizeof_header_t + (s1.mem a).size ≤ p - sizeof_header_t) :=
  reuse_stays_inside_block heap3 [4160] heap3_reachable

/-- C14: in every reachable state the headers reachable from `head` form a
finite list without repetition, in strictly ascending address order; a
non-null `next` link of a header of the list points to a strictly higher
address, namely to the following header of the list; `tail` is the last
element; `head` and `tail` are both null when the list is empty and both
non-null otherwise. -/
theorem list_is_address_sorted (s : State) (live : List Nat) (hr : Reachable s live) :
    ∃ l, IsList s.mem s.head l ∧ l.Pairwise (fun a b => a < b) ∧ l.Nodup ∧
      (∀ pre a post, l = pre ++ a :: post → (s.mem a).next = post.head?.getD 0) ∧
      (∀ a ∈ l, (s.mem a).next ≠ 0 → a < (s.mem a).next ∧ (s.mem a).next ∈ l) ∧
      s.tail = l.getLast?.getD 0 ∧
      (l = [] → s.head = 0 ∧ s.tail = 0) ∧ (l ≠ [] → s.head ≠ 0 ∧ s.tail ≠ 0) := by
  obtain ⟨l, hinv, _⟩ := reachable_inv hr
  have hpw := laid_pairwise hinv.laid
  have hnext : ∀ pre a post, l = pre ++ a :: post → (s.mem a).next = post.head?.getD 0 := by
    intro pre a post hl
    have hlist := hinv.list
    rw [hl] at hlist
    exact isList_next hlist
  refine ⟨l, hinv.list, hpw, laid_nodup hinv.laid, hnext, ?_, hinv.tail_last, ?_, ?_⟩
  · intro a ha hne
    obtain ⟨pre, post, hsplit⟩ := List.append_of_mem ha
    have hn := hnext pre a post hsplit
    cases post with
    | nil =>
      rw [hn] at hne
      exact absurd rfl hne
    | cons b post =>
      have hb : (s.mem a).next = b := hn
      rw [hb]
      rw [hsplit] at hpw
      have h1 := (List.pairwise_append.1 hpw).2.1
      have h2 := (List.pairwise_cons.1 h1).1 b (by simp)
      exact ⟨h2, by rw [hsplit]; simp⟩
  · intro hnil
    have hl := hinv.list
    have ht := hinv.tail_last
    rw [hnil] at hl ht
    exact ⟨hl, by simpa using ht⟩
  · intro hne
    rcases nil_or_snoc l with hnil | ⟨L, t, hL⟩
    · exact absurd hnil hne
    · have ht := hinv.tail_last
      have hl := hinv.list
      rw [hL] at ht
      constructor
      · cases hl2 : l with
        | nil => exact absurd hl2 hne
        | cons a l2 =>
          rw [hl2] at hl
          exact isList_head_ne_zero hl
      · have ht2 : s.tail = t := by simpa using ht
        rw [ht2]
        exact isList_ne_zero hl t (by rw [hL]; simp)

theorem list_is_address_sorted_witness :
    ∃ l, IsList heap2.mem heap2.head l ∧ l.Pairwise (fun a b => a < b) ∧ l.Nodup ∧
      (∀ pre a post, l = pre ++ a :: post → (heap2.mem a).next = post.head?.getD 0) ∧
      (∀ a ∈ l, (heap2.mem a).next ≠ 0 → a < (heap2.mem a).next ∧ (heap2.mem a).next ∈ l) ∧
      heap2.tail = l.getLast?.getD 0 ∧
      (l = [] → heap2.head = 0 ∧ heap2.tail = 0) ∧
      (l ≠ [] → heap2.head ≠ 0 ∧ heap2.tail ≠ 0) :=
  list_is_address_sorted heap2 [4160, 4120] heap2_reachable

theorem heap3_free : free 3 heap3 4160 = some heap5 := rfl

theorem heap5_malloc : malloc 3 heap5 8 = some (4120, heap6) := rfl

theorem heap5_reachable : Reachable heap5 [] :=
  Reachable.dealloc 3 4160 heap5 heap3_reachable (Or.inr (by decide)) heap3_free

theorem heap6_reachable : Reachable heap6 [4120] :=
  Reachable.alloc 3 8 4120 heap6 heap5_reachable (by decide) heap5_malloc

/-- C19: in every reachable state, when the block of a live pointer `p` ends
at the break (`p + size` is the break), its header is `tail`, the last header
of the list; so `free(p)`, whose loop unlinks whatever `tail` is, returns
(fuel for one step per header is enough) and removes exactly the header of
`p`: the list afterwards is the old list without it, and the break is the
address of the removed header. -/
theorem freed_heap_top_block_is_tail (s : State) (live : List Nat) (p : Nat)
    (hr : Reachable s live) (hp : p ∈ live)
    (hend : p + (s.mem (p - sizeof_header_t)).size = s.brk) :
    s.tail = p - sizeof_header_t ∧
      ∃ L, IsList s.mem s.head (L ++ [p - sizeof_header_t]) ∧
        ∀ fuel, L.length + 1 ≤ fuel →
          ∃ s1, free fuel s p = some s1 ∧ IsList s1.mem s1.head L ∧
            (p - sizeof_header_t) ∉ L ∧ s1.brk = p - sizeof_header_t := by
  obtain ⟨l, hinv, hlive⟩ := reachable_inv hr
  obtain ⟨h, hh, e⟩ := hlive p hp
  subst e
  rw [Nat.add_sub_cancel] at hend ⊢
  have hend2 : h + sizeof_header_t + (s.mem h).size = s.brk := hend
  obtain ⟨L, hL, hrun⟩ := free_reclaim_spec hinv hh hend2
  constructor
  · have ht := hinv.tail_last
    rw [hL] at ht
    simpa using ht
  · refine ⟨L, by rw [← hL]; exact hinv.list, ?_⟩
    intro fuel hf
    obtain ⟨s1, hf1, hinv1, hbrk, _⟩ := hrun fuel (by rw [hL]; simpa using hf)
    refine ⟨s1, hf1, hinv1.list, ?_, hbrk⟩
    intro hmem2
    have hnd := laid_nodup hinv.laid
    rw [hL] at hnd
    exact (List.nodup_append.1 hnd).2.2 hmem2 (by simp)

theorem freed_heap_top_block_is_tail_witness :
    heap2.tail = 4160 - sizeof_header_t ∧
      ∃ L, IsList heap2.mem heap2.head (L ++ [4160 - sizeof_header_t]) ∧
        ∀ fuel, L.length + 1 ≤ fuel →
          ∃ s1, free fuel heap2 4160 = some s1 ∧ IsList s1.mem s1.head L ∧
            (4160 - sizeof_header_t) ∉ L ∧ s1.brk = 4160 - sizeof_header_t :=
  freed_heap_top_block_is_tail heap2 [4160, 4120] 4160 heap2_reachable (by decide) (by decide)

/-! ## Reuse records the new size -/

theorem free_interior_eval (fuel : Nat) {s : State} {p : Nat} (hp : p ≠ 0)
    (hint : (p + (s.mem (p - sizeof_header_t)).size) % 2 ^ 64 ≠ s.brk) :
    free fuel s p = some { s with mem := store s.mem (p - sizeof_header_t) { s.mem (p - sizeof_header_t) with is_free := true } } := by
  have hc : ¬ ((p + (s.mem (p - sizeof_header_t)).size) % 2 ^ 64 = (sbrk s 0).1) := by
    rw [sbrk_query]
    exact hint
  simp only [free, if_neg hp]
  rw [if_neg hc]

theorem malloc_miss_result {s : State} {n fuel : Nat} (hn : 0 < n)
    (hsmall : sizeof_header_t + n < 2 ^ 63) (hmiss : get_free_block fuel s n = some 0) :
    ∃ p s1, malloc fuel s n = some (p, s1) ∧
      (p ≠ 0 → p = s.brk + sizeof_header_t ∧ s1.brk = s.brk + (sizeof_header_t + n)) := by
  by_cases hfail : (sbrk s ((sizeof_header_t + n) % 2 ^ 64)).1 = SBRK_FAILED
  · refine ⟨0, (sbrk s ((sizeof_header_t + n) % 2 ^ 64)).2, ?_, fun h => absurd rfl h⟩
    have hne : n ≠ 0 := by omega
    simp only [malloc, if_neg hne, hmiss, ne_eq, not_true_eq_false, if_false, hfail, if_true]
  · obtain ⟨s1, hm, hbrk, _⟩ := malloc_grow_core hn hsmall hmiss hfail
    exact ⟨_, s1, hm, fun _ => ⟨rfl, by omega⟩⟩

theorem get_free_block_head_fits {s : State} {n fuel : Nat} (hf : 0 < fuel)
    (hh : s.head ≠ 0) (hfree : (s.mem s.head).is_free = true)
    (hle : n ≤ (s.mem s.head).size) : get_free_block fuel s n = some s.head := by
  obtain ⟨k, rfl⟩ : ∃ k, fuel = k + 1 := ⟨fuel - 1, by omega⟩
  simp [get_free_block, get_free_block_loop, hh, hfree, hle]

/-- C18: from the empty heap, let a block of size `c` and then another block
(of size `d`) be created by growth, the first block be freed, handed out again
by `malloc(n)` with `0 < n < m ≤ c` (the same pointer is returned and the
header now records `n`) and freed again.  Then the scan for `m` finds no
block (the first block is free but records `n < m`, the other one is not
free), so `malloc(m)` takes the growth path: it does not return the first
block's pointer, and a non-null result is a new block at the old break. -/
theorem lost_capacity_on_reuse (mem : Nat → header_t) (B hi fuel c d n m : Nat)
    (hB : 0 < B) (hhi : hi < 2 ^ 64 - 1) (hn : 0 < n) (hnm : n < m) (hmc : m ≤ c)
    (hd : 0 < d) (sc : sizeof_header_t + c < 2 ^ 63) (sd : sizeof_header_t + d < 2 ^ 63)
    (hroom : B + (sizeof_header_t + c) + (sizeof_header_t + d) ≤ hi) (hf : 3 ≤ fuel) :
    ∃ s1 s2 s3 s4 s5 p1 p2,
      p1 = B + sizeof_header_t ∧
      malloc fuel (empty_heap mem B hi) c = some (p1, s1) ∧
      malloc fuel s1 d = some (p2, s2) ∧ p2 ≠ 0 ∧ p2 ≠ p1 ∧
      free fuel s2 p1 = some s3 ∧
      malloc fuel s3 n = some (p1, s4) ∧ (s4.mem (p1 - sizeof_header_t)).size = n ∧
      free fuel s4 p1 = some s5 ∧
      (s5.mem (p1 - sizeof_header_t)).is_free = true ∧
      get_free_block fuel s5 m = some 0 ∧
      ∃ p s6, malloc fuel s5 m = some (p, s6) ∧ p ≠ p1 ∧
        (p ≠ 0 → p = s5.brk + sizeof_header_t ∧ s6.brk = s5.brk + (sizeof_header_t + m)) := by
  have h24 : sizeof_header_t = 24 := rfl
  have hinv0 : Inv (empty_heap mem B hi) [] := inv_empty mem hB (by omega) hhi
  have hb0 : (empty_heap mem B hi).brk = B := rfl
  have hh0 : (empty_heap mem B hi).hi = hi := rfl
  obtain ⟨s1, hm1, hinv1, hnf1, hbrk1, hhi1, _, hsz1, _⟩ :=
    malloc_fresh hinv0 (fun a ha => by simp at ha) (show 0 < c by omega) sc
      (show ([] : List Nat).length < fuel by simp; omega)
      (by rw [hb0, hh0]; omega)
  rw [hb0] at hm1 hinv1 hnf1 hbrk1 hsz1
  rw [hh0] at hhi1
  simp only [List.nil_append] at hinv1 hnf1
  obtain ⟨s2, hm2, hinv2, hnf2, hbrk2, _, _, _, hkeep2⟩ :=
    malloc_fresh hinv1 hnf1 hd sd (show [B].length < fuel by simp; omega)
      (by rw [hbrk1, hhi1]; omega)
  have hlist2 : [B] ++ [s1.brk] = [B, s1.brk] := rfl
  rw [hlist2] at hinv2 hnf2
  have hne : s1.brk ≠ B := by omega
  have hhead2 : s2.head = B := hinv2.list.1
  have hsz2B : (s2.mem B).size = c := by rw [hkeep2 B (by omega), hsz1]
  have hp1 : B + sizeof_header_t ≠ 0 := by omega
  -- first free: the block is interior
  have hint2 : (B + sizeof_header_t + (s2.mem (B + sizeof_header_t - sizeof_header_t)).size)
      % 2 ^ 64 ≠ s2.brk := by
    rw [Nat.add_sub_cancel, hsz2B, hbrk2, hbrk1, Nat.mod_eq_of_lt (by omega)]
    omega
  have hf3 := free_interior_eval fuel hp1 hint2
  rw [Nat.add_sub_cancel] at hf3
  obtain ⟨s3, hs3⟩ : ∃ s3, s3 = { s2 with mem := store s2.mem B { s2.mem B with is_free := true } } :=
    ⟨_, rfl⟩
  rw [← hs3] at hf3
  have hinv3 : Inv s3 [B, s1.brk] := by
    rw [hs3]
    exact inv_flag B hinv2
  have hm3B : s3.mem B = { s2.mem B with is_free := true } := by
    rw [hs3]
    exact store_same _ _ _
  have hm3o : s3.mem s1.brk = s2.mem s1.brk := by
    rw [hs3]
    exact store_other _ _ hne
  have hhead3 : s3.head = B := by rw [hs3]; exact hhead2
  have hbrk3 : s3.brk = s2.brk := by rw [hs3]
  -- reuse with the smaller request
  have hg3 : get_free_block fuel s3 n = some B := by
    have := @get_free_block_head_fits s3 n fuel (by omega) (by rw [hhead3]; omega)
      (by rw [hhead3, hm3B]) (by rw [hhead3, hm3B]; show n ≤ (s2.mem B).size; omega)
    rw [hhead3] at this
    exact this
  have hm4 := malloc_hit_spec hn hg3 (show B ≠ 0 by omega)
  obtain ⟨s4, hs4⟩ : ∃ s4, s4 = { s3 with mem := store s3.mem B { s3.mem B with size := n } } :=
    ⟨_, rfl⟩
  rw [← hs4] at hm4
  have hinv4 : Inv s4 [B, s1.brk] := by
    rw [hs4]
    exact inv_reuse hinv3 (by rw [hm3B]; show n ≤ (s2.mem B).size; omega)
  have hm4B : s4.mem B = { s3.mem B with size := n } := by
    rw [hs4]
    exact store_same _ _ _
  have hm4o : s4.mem s1.brk = s2.mem s1.brk := by
    rw [hs4]
    show store s3.mem B _ s1.brk = _
    rw [store_other _ _ hne, hm3o]
  have hbrk4 : s4.brk = s2.brk := by rw [hs4]; exact hbrk3
  -- second free: still interior
  have hint4 : (B + sizeof_header_t + (s4.mem (B + sizeof_header_t - sizeof_header_t)).size)
      % 2 ^ 64 ≠ s4.brk := by
    rw [Nat.add_sub_cancel, hm4B, hbrk4, hbrk2, hbrk1]
    show (B + sizeof_header_t + n) % 2 ^ 64 ≠ _
    rw [Nat.mod_eq_of_lt (by omega)]
    omega
  have hf5 := free_interior_eval fuel hp1 hint4
  rw [Nat.add_sub_cancel] at hf5
  obtain ⟨s5, hs5⟩ : ∃ s5, s5 = { s4 with mem := store s4.mem B { s4.mem B with is_free := true } } :=
    ⟨_, rfl⟩
  rw [← hs5] at hf5
  have hinv5 : Inv s5 [B, s1.brk] := by
    rw [hs5]
    exact inv_flag B hinv4
  have hm5B : s5.mem B = { s4.mem B with is_free := true } := by
    rw [hs5]
    exact store_same _ _ _
  have hm5o : s5.mem s1.brk = s2.mem s1.brk := by
    rw [hs5]
    show store s4.mem B _ s1.brk = _
    rw [store_other _ _ hne, hm4o]
  have hbrk5 : s5.brk = s2.brk := by rw [hs5]; exact hbrk4
  have hmiss5 : get_free_block fuel s5 m = some 0 := by
    refine get_free_block_miss hinv5.list (show [B, s1.brk].length < fuel by simp; omega) ?_
    intro a ha hc
    have ha2 : a = B ∨ a = s1.brk := by simpa using ha
    rcases ha2 with e | e
    · rw [e, hm5B, hm4B] at hc
      have : m ≤ n := hc.2
      omega
    · rw [e, hm5o, hnf2 s1.brk (by simp)] at hc
      exact Bool.false_ne_true hc.1
  obtain ⟨p, s6, hm6, hres⟩ := malloc_miss_result (show 0 < m by omega)
    (show sizeof_header_t + m < 2 ^ 63 by omega) hmiss5
  refine ⟨s1, s2, s3, s4, s5, _, _, rfl, hm1, hm2, by omega, by omega, hf3, hm4, ?_, hf5, ?_,
    hmiss5, p, s6, hm6, ?_, hres⟩
  · rw [Nat.add_sub_cancel, hm4B]
  · rw [Nat.add_sub_cancel, hm5B]
  · intro e
    have hp0 : p ≠ 0 := by omega
    have := (hres hp0).1
    omega

theorem lost_capacity_on_reuse_witness :
    ∃ s1 s2 s3 s4 s5 p1 p2,
      p1 = 4096 + sizeof_header_t ∧
      malloc 3 (empty_heap zero_mem 4096 (2 ^ 32)) 16 = some (p1, s1) ∧
      malloc 3 s1 32 = some (p2, s2) ∧ p2 ≠ 0 ∧ p2 ≠ p1 ∧
      free 3 s2 p1 = some s3 ∧
      malloc 3 s3 8 = some (p1, s4) ∧ (s4.mem (p1 - sizeof_header_t)).size = 8 ∧
      free 3 s4 p1 = some s5 ∧
      (s5.mem (p1 - sizeof_header_t)).is_free = true ∧
      get_free_block 3 s5 12 = some 0 ∧
      ∃ p s6, malloc 3 s5 12 = some (p, s6) ∧ p ≠ p1 ∧
        (p ≠ 0 → p = s5.brk + sizeof_header_t ∧ s6.brk = s5.brk + (sizeof_header_t + 12)) :=
  lost_capacity_on_reuse zero_mem 4096 (2 ^ 32) 3 16 32 8 12 (by decide) (by decide)
    (by decide) (by decide) (by decide) (by decide) (by decide) (by decide) (by decide)
    (by decide)

/-! ## Creation sizes -/

theorem reachableCap_reachable {s : State} {live : List Nat} {cap : Nat → Nat}
    (hr : ReachableCap s live cap) : Reachable s live := by
  induction hr with
  | init mem B hi hB hle hhi => exact Reachable.init mem B hi hB hle hhi
  | alloc fuel n p s1 _ hsmall hm ih => exact Reachable.alloc fuel n p s1 ih hsmall hm
  | dealloc fuel p s1 _ hvalid hf ih => exact Reachable.dealloc fuel p s1 ih hvalid hf

theorem laid_cap_congr {mem mem1 : Nat → header_t} {cap : Nat → Nat} {brk : Nat}
    {l : List Nat} (h : Laid (cap_mem mem cap) brk l) : Laid (cap_mem mem1 cap) brk l :=
  @laid_mono (cap_mem mem cap) (cap_mem mem1 cap) brk brk (le_refl _) l
    (fun _ _ => le_refl _) h

/-- In every reachable state each recorded size is at most the creation size,
and the blocks are laid out one after the other even when measured with
their creation sizes. -/
theorem reachableCap_inv {s : State} {live : List Nat} {cap : Nat → Nat}
    (hr : ReachableCap s live cap) :
    ∃ l, Inv s l ∧ (∀ q ∈ live, ∃ h ∈ l, q = h + sizeof_header_t) ∧
      (∀ a ∈ l, (s.mem a).size ≤ cap a) ∧ Laid (cap_mem s.mem cap) s.brk l := by
  have h24 : sizeof_header_t = 24 := rfl
  induction hr with
  | init mem B hi hB hle hhi =>
    exact ⟨[], inv_empty mem hB hle hhi, fun q hq => by simp at hq,
      fun a ha => by simp at ha, trivial⟩
  | @alloc s0 live0 cap0 fuel n p s1 _ hsmall hm ih =>
    obtain ⟨l, hinv, hlive, hle, hlc⟩ := ih
    rcases malloc_cases hinv hsmall hm with ⟨h0, e⟩ | ⟨_, h, hh, hg, hne, _, hnle, e1, e2⟩ |
      ⟨_, hg, e1, hbrk, htl, hhd, hlo, hhi, hroom, hmem⟩
    · subst e
      subst h0
      have hc : ¬ ((0 : Nat) ≠ 0 ∧ get_free_block fuel s1 n = some 0) := fun hx => hx.1 rfl
      rw [if_neg hc, if_pos rfl]
      exact ⟨l, hinv, hlive, hle, hlc⟩
    · have hc : ¬ (p ≠ 0 ∧ get_free_block fuel s0 n = some 0) := by
        intro hx
        rw [hg] at hx
        exact hne (Option.some.inj hx.2)
      have hp0 : p ≠ 0 := by omega
      rw [if_neg hc, if_neg hp0]
      subst e2
      refine ⟨l, inv_reuse hinv hnle, ?_, ?_, ?_⟩
      · intro q hq
        rcases List.mem_cons.1 hq with e | hq2
        · exact ⟨h, hh, by rw [e, e1]⟩
        · exact hlive q hq2
      · intro a ha
        by_cases e : a = h
        · subst e
          simp only [store_same]
          exact le_trans hnle (hle a ha)
        · simp only [store_other _ _ e]
          exact hle a ha
      · exact laid_cap_congr hlc
    · have hp0 : p ≠ 0 := by omega
      have hc : p ≠ 0 ∧ get_free_block fuel s0 n = some 0 := ⟨hp0, hg⟩
      rw [if_pos hc, if_neg hp0]
      have hlt : ∀ a ∈ l, a ≠ s0.brk := by
        intro a ha e
        have := laid_end_le hinv.laid a ha
        omega
      refine ⟨l ++ [s0.brk], inv_grow hinv hsmall hbrk htl hhd hlo hhi hroom hmem, ?_, ?_, ?_⟩
      · intro q hq
        rcases List.mem_cons.1 hq with e | hq2
        · exact ⟨s0.brk, by simp, by rw [e, e1]⟩
        · obtain ⟨h, hh, e⟩ := hlive q hq2
          exact ⟨h, List.mem_append_left _ hh, e⟩
      · intro a ha
        rcases List.mem_append.1 ha with h1 | h1
        · rw [hmem, (grow_mem_size s0.mem s0.brk s0.tail n (hlt a h1)).1, if_neg (hlt a h1)]
          exact hle a h1
        · have e : a = s0.brk := by simpa using h1
          rw [e, hmem, grow_mem_new s0.mem s0.brk s0.tail n (inv_tail_ne_brk hinv), if_pos rfl]
      · rw [laid_snoc]
        constructor
        · refine laid_mono (le_refl _) ?_ hlc
          intro a ha
          show (if a = s0.brk then n else cap0 a) ≤ cap0 a
          rw [if_neg (hlt a ha)]
        · show s0.brk + sizeof_header_t + (if s0.brk = s0.brk then n else cap0 s0.brk) ≤ s1.brk
          rw [if_pos rfl, hbrk]
  | @dealloc s0 live0 cap0 fuel p s1 _ hvalid hf ih =>
    obtain ⟨l, hinv, hlive, hle, hlc⟩ := ih
    have hfilter : ∀ q ∈ live0.filter (fun q => decide (q ≠ p)), q ∈ live0 ∧ q ≠ p := by
      intro q hq
      have := List.mem_filter.1 hq
      exact ⟨this.1, by simpa using this.2⟩
    rcases hvalid with hp0 | hpl
    · subst hp0
      have h0 : free fuel s0 0 = some s0 := by simp [free]
      rw [h0] at hf
      have e : s0 = s1 := Option.some.inj hf
      subst e
      exact ⟨l, hinv, fun q hq => hlive q (hfilter q hq).1, hle, hlc⟩
    · obtain ⟨h, hh, e⟩ := hlive p hpl
      subst e
      rcases free_cases hinv hh hf with ⟨_, L, hL, hinv1, hbrk, _, _, hsame⟩ | ⟨_, e2⟩
      · refine ⟨L, hinv1, ?_, ?_, ?_⟩
        · intro q hq
          obtain ⟨hq1, hq2⟩ := hfilter q hq
          obtain ⟨g, hg, e⟩ := hlive q hq1
          rw [hL] at hg
          rcases List.mem_append.1 hg with hg1 | hg1
          · exact ⟨g, hg1, e⟩
          · have : g = h := by simpa using hg1
            rw [this] at e
            exact absurd e hq2
        · intro a ha
          rw [(hsame a).1]
          exact hle a (by rw [hL]; exact List.mem_append_left _ ha)
        · rw [hL, laid_snoc] at hlc
          rw [hbrk]
          exact laid_cap_congr hlc.1
      · subst e2
        refine ⟨l, inv_flag h hinv, fun q hq => hlive q (hfilter q hq).1, ?_, ?_⟩
        · intro a ha
          by_cases e : a = h
          · subst e
            simp only [store_same]
            exact hle a ha
          · simp only [store_other _ _ e]
            exact hle a ha
        · exact laid_cap_congr hlc

/-- In a state reached with every request below the `2 ^ 63` bound, a live
block that ends at the break still records its creation size. -/
theorem cap_at_break {s : State} {live : List Nat} {cap : Nat → Nat} {p : Nat}
    (hr : ReachableCap s live cap) (hp : p ∈ live)
    (hend : p + (s.mem (p - sizeof_header_t)).size = s.brk) :
    (s.mem (p - sizeof_header_t)).size = cap (p - sizeof_header_t) := by
  obtain ⟨l, _, hlive, hle, hlc⟩ := reachableCap_inv hr
  obtain ⟨h, hh, e⟩ := hlive p hp
  subst e
  rw [Nat.add_sub_cancel] at hend ⊢
  have h1 := hle h hh
  have h2 : h + sizeof_header_t + cap h ≤ s.brk := laid_end_le hlc h hh
  omega

theorem heap2_reachableCap : ReachableCap heap2 [4160, 4120] cap2 :=
  ReachableCap.alloc 3 32 4160 heap2
    (ReachableCap.alloc 3 16 4120 heap1
      (ReachableCap.init zero_mem 4096 (2 ^ 32) (by decide) (by decide) (by decide))
      (by decide) heap0_malloc)
    (by decide) heap1_malloc

/-! ## The lock -/

theorem isSome_map_eq {α β : Type} (f : α → β) (o : Option α) :
    (o.map f).isSome = o.isSome := by
  cases o <;> rfl

theorem get_free_block_events_isSome (mem : Nat → header_t) (size : Nat) :
    ∀ (fuel p : Nat), (get_free_block_events mem size fuel p).isSome
      = (get_free_block_loop mem size fuel p).isSome
  | 0, _ => rfl
  | fuel + 1, p => by
    simp only [get_free_block_events, get_free_block_loop]
    by_cases hp : p = 0
    · simp [hp]
    · simp only [if_neg hp]
      by_cases hc : ((mem p).is_free && decide (size ≤ (mem p).size)) = true
      · simp [hc]
      · simp only [hc, Bool.false_eq_true, if_false]
        rw [isSome_map_eq]
        exact get_free_block_events_isSome mem size fuel _

theorem get_free_block_events_access (mem : Nat → header_t) (size : Nat) :
    ∀ (fuel p : Nat) (t : List Event), get_free_block_events mem size fuel p = some t →
      t.all is_access = true
  | 0, _, _, h => by simp [get_free_block_events] at h
  | fuel + 1, p, t, h => by
    simp only [get_free_block_events] at h
    by_cases hp : p = 0
    · simp only [if_pos hp] at h
      rw [← Option.some.inj h]
      rfl
    · simp only [if_neg hp] at h
      by_cases hc : ((mem p).is_free && decide (size ≤ (mem p).size)) = true
      · simp only [hc, if_true] at h
        rw [← Option.some.inj h]
        rfl
      · simp only [hc] at h
        cases hrec : get_free_block_events mem size fuel (mem p).next with
        | none =>
          rw [hrec] at h
          simp at h
        | some t2 =>
          rw [hrec] at h
          have ih := get_free_block_events_access mem size fuel _ t2 hrec
          rw [← Option.some.inj h]
          simp only [List.all_cons, ih]
          rfl

theorem unlink_loop_events_isSome :
    ∀ (fuel : Nat) (s : State) (p : Nat),
      (unlink_loop_events fuel s p).isSome = (unlink_loop fuel s p).isSome
  | 0, _, _ => rfl
  | fuel + 1, s, p => by
    simp only [unlink_loop_events, unlink_loop]
    by_cases hp : p = 0
    · simp [hp]
    · simp only [if_neg hp]
      rw [isSome_map_eq]
      exact unlink_loop_events_isSome fuel _ _

theorem unlink_loop_events_access :
    ∀ (fuel : Nat) (s : State) (p : Nat) (t : List Event),
      unlink_loop_events fuel s p = some t → t.all is_access = true
  | 0, _, _, _, h => by simp [unlink_loop_events] at h
  | fuel + 1, s, p, t, h => by
    simp only [unlink_loop_events] at h
    by_cases hp : p = 0
    · simp only [if_pos hp] at h
      rw [← Option.some.inj h]
      rfl
    · simp only [if_neg hp] at h
      generalize hrec : unlink_loop_events fuel _ _ = r at h
      cases r with
      | none => simp at h
      | some t2 =>
        have ih := unlink_loop_events_access fuel _ _ t2 hrec
        rw [← Option.some.inj h]
        by_cases hq : (s.mem p).next = s.tail
        · simp only [if_pos hq, List.all_append, List.all_cons, List.all_nil, ih]
          rfl
        · simp only [if_neg hq, List.all_append, List.all_cons, List.all_nil, ih]
          rfl

theorem guard_run_access :
    ∀ (mid rest : List Event), mid.all is_access = true →
      guard_run true (mid ++ rest) = guard_run true rest
  | [], _, _ => rfl
  | e :: mid, rest, h => by
    simp only [List.all_cons, Bool.and_eq_true] at h
    have ih := guard_run_access mid rest h.2
    cases e with
    | lock => exact absurd h.1 (by decide)
    | unlock => exact absurd h.1 (by decide)
    | read_global => simpa [guard_run] using ih
    | write_global => simpa [guard_run] using ih
    | read_header => simpa [guard_run] using ih
    | write_header => simpa [guard_run] using ih
    | sbrk_call => simpa [guard_run] using ih

theorem count_access :
    ∀ (mid : List Event), mid.all is_access = true →
      mid.count Event.lock = 0 ∧ mid.count Event.unlock = 0
  | [], _ => ⟨rfl, rfl⟩
  | e :: mid, h => by
    simp only [List.all_cons, Bool.and_eq_true] at h
    obtain ⟨k1, k2⟩ := count_access mid h.2
    cases e with
    | lock => exact absurd h.1 (by decide)
    | unlock => exact absurd h.1 (by decide)
    | read_global => exact ⟨by simp [k1], by simp [k2]⟩
    | write_global => exact ⟨by simp [k1], by simp [k2]⟩
    | read_header => exact ⟨by simp [k1], by simp [k2]⟩
    | write_header => exact ⟨by simp [k1], by simp [k2]⟩
    | sbrk_call => exact ⟨by simp [k1], by simp [k2]⟩

/-- A trace that takes the lock, then only touches shared state or calls
`sbrk`, then releases the lock, keeps the discipline. -/
theorem disciplined_of_shape (mid : List Event) {tr : List Event} (hmid : mid.all is_access = true)
    (htr : tr = Event.lock :: (mid ++ [Event.unlock])) : Disciplined tr := by
  obtain ⟨k1, k2⟩ := count_access mid hmid
  subst htr
  refine ⟨?_, ?_, ?_⟩
  · show guard_run true (mid ++ [Event.unlock]) = some false
    rw [guard_run_access mid _ hmid]
    rfl
  · simp [List.count_cons, List.count_append, k1, k2]
  · simp [List.count_cons, List.count_append, k1]

theorem disciplined_nil : Disciplined [] := ⟨rfl, rfl, by decide⟩

theorem malloc_events_isSome (fuel : Nat) (s : State) (size : Nat) :
    (malloc_events fuel s size).isSome = (malloc fuel s size).isSome := by
  unfold malloc_events malloc
  by_cases hn : size = 0
  · simp [hn]
  · simp only [if_neg hn]
    have hs := get_free_block_events_isSome s.mem size fuel s.head
    cases hg : get_free_block fuel s size with
    | none => rfl
    | some header =>
      have hg2 : get_free_block_loop s.mem size fuel s.head = some header := hg
      rw [hg2] at hs
      cases he : get_free_block_events s.mem size fuel s.head with
      | none =>
        rw [he] at hs
        simp at hs
      | some scan =>
        simp only []
        by_cases hh : header ≠ 0
        · simp only [if_pos hh]
          rfl
        · simp only [if_neg hh]
          by_cases hfail : (sbrk s ((sizeof_header_t + size) % 2 ^ 64)).1 = SBRK_FAILED
          · simp only [if_pos hfail]
            rfl
          · simp only [if_neg hfail]
            rfl

theorem free_events_isSome (fuel : Nat) (s : State) (block : Nat) :
    (free_events fuel s block).isSome = (free fuel s block).isSome := by
  unfold free_events free
  by_cases hb : block = 0
  · simp [hb]
  · simp only [if_neg hb]
    by_cases hc : (block + (s.mem (block - sizeof_header_t)).size) % 2 ^ 64 = (sbrk s 0).1
    · simp only [if_pos hc]
      by_cases ht : s.head = s.tail
      · simp only [if_pos ht]
        rfl
      · simp only [if_neg ht]
        have hs := unlink_loop_events_isSome fuel s s.head
        cases hu : unlink_loop fuel s s.head with
        | none =>
          rw [hu] at hs
          cases he : unlink_loop_events fuel s s.head with
          | none => rfl
          | some t =>
            rw [he] at hs
            simp at hs
        | some s1 =>
          rw [hu] at hs
          cases he : unlink_loop_events fuel s s.head with
          | none =>
            rw [he] at hs
            simp at hs
          | some t => rfl
    · simp only [if_neg hc]
      rfl

theorem malloc_events_disciplined {fuel : Nat} {s : State} {size : Nat} {tr : List Event}
    (h : malloc_events fuel s size = some tr) : Disciplined tr := by
  unfold malloc_events at h
  by_cases hn : size = 0
  · simp only [if_pos hn] at h
    rw [← Option.some.inj h]
    exact disciplined_nil
  · simp only [if_neg hn] at h
    cases hg : get_free_block fuel s size with
    | none =>
      rw [hg] at h
      simp at h
    | some header =>
      cases he : get_free_block_events s.mem size fuel s.head with
      | none =>
        rw [hg, he] at h
        simp at h
      | some scan =>
        have hscan := get_free_block_events_access s.mem size fuel s.head scan he
        rw [hg, he] at h
        simp only [] at h
        by_cases hh : header ≠ 0
        · rw [if_pos hh] at h
          refine disciplined_of_shape
            ([Event.read_global] ++ scan ++ [Event.write_header]) ?_ ?_
          · simp only [List.all_append, List.all_cons, List.all_nil, hscan]
            rfl
          · rw [← Option.some.inj h]
            simp
        · rw [if_neg hh] at h
          by_cases hfail : (sbrk s ((sizeof_header_t + size) % 2 ^ 64)).1 = SBRK_FAILED
          · rw [if_pos hfail] at h
            refine disciplined_of_shape
              ([Event.read_global] ++ scan ++ [Event.sbrk_call]) ?_ ?_
            · simp only [List.all_append, List.all_cons, List.all_nil, hscan]
              rfl
            · rw [← Option.some.inj h]
              simp
          · rw [if_neg hfail] at h
            refine disciplined_of_shape
              ([Event.read_global] ++ scan ++
                [Event.sbrk_call, Event.write_header, Event.write_header, Event.write_header,
                  Event.read_global] ++
                (if (sbrk s ((sizeof_header_t + size) % 2 ^ 64)).2.head = 0 then
                  [Event.write_global] else []) ++
                [Event.read_global] ++
                (if (sbrk s ((sizeof_header_t + size) % 2 ^ 64)).2.tail ≠ 0 then
                  [Event.read_global, Event.write_header] else []) ++
                [Event.write_global]) ?_ ?_
            · simp only [List.all_append, List.all_cons, List.all_nil, hscan]
              split_ifs <;> rfl
            · rw [← Option.some.inj h]
              simp

theorem free_events_disciplined {fuel : Nat} {s : State} {block : Nat} {tr : List Event}
    (h : free_events fuel s block = some tr) : Disciplined tr := by
  unfold free_events at h
  by_cases hb : block = 0
  · simp only [if_pos hb] at h
    rw [← Option.some.inj h]
    exact disciplined_nil
  · simp only [if_neg hb] at h
    by_cases hc : (block + (s.mem (block - sizeof_header_t)).size) % 2 ^ 64 = (sbrk s 0).1
    · simp only [if_pos hc] at h
      by_cases ht : s.head = s.tail
      · simp only [if_pos ht] at h
        refine disciplined_of_shape
          ([Event.sbrk_call, Event.read_header, Event.read_global, Event.read_global,
            Event.write_global, Event.write_global, Event.read_header, Event.sbrk_call])
          rfl ?_
        rw [← Option.some.inj h]
        rfl
      · simp only [if_neg ht] at h
        cases he : unlink_loop_events fuel s s.head with
        | none =>
          rw [he] at h
          simp at h
        | some t =>
          have hacc := unlink_loop_events_access fuel s s.head t he
          rw [he] at h
          refine disciplined_of_shape
            ([Event.sbrk_call, Event.read_header] ++
              ([Event.read_global, Event.read_global, Event.read_global] ++ t) ++
              [Event.read_header, Event.sbrk_call]) ?_ ?_
          · simp only [List.all_append, List.all_cons, List.all_nil, hacc]
            rfl
          · rw [← Option.some.inj h]
            simp
    · simp only [if_neg hc] at h
      refine disciplined_of_shape
        ([Event.sbrk_call, Event.read_header, Event.write_header]) rfl ?_
      rw [← Option.some.inj h]
      rfl

/-- C16: with the lock modelled as acquire and release events of a trace, a
call of `malloc` or `free` produces a trace exactly when the call returns,
and every such trace keeps the lock discipline: a path that takes the lock
releases it exactly once before returning, the lock is not held on return,
and every read or write of `head`, `tail` or a header and every `sbrk` call
lies between the acquire and the release (the early returns for size 0 and
for the null pointer touch nothing). -/
theorem guard_discipline (fuel : Nat) (s : State) :
    (∀ size, (malloc_events fuel s size).isSome = (malloc fuel s size).isSome) ∧
    (∀ block, (free_events fuel s block).isSome = (free fuel s block).isSome) ∧
    (∀ size tr, malloc_events fuel s size = some tr → Disciplined tr) ∧
    (∀ block tr, free_events fuel s block = some tr → Disciplined tr) :=
  ⟨malloc_events_isSome fuel s, free_events_isSome fuel s,
    fun _ _ h => malloc_events_disciplined h, fun _ _ h => free_events_disciplined h⟩

theorem guard_discipline_witness :
    Disciplined [Event.lock, Event.sbrk_call, Event.read_header, Event.read_global,
      Event.read_global, Event.read_global, Event.read_header, Event.read_global,
      Event.write_header, Event.write_global, Event.read_header, Event.read_header,
      Event.sbrk_call, Event.unlock] :=
  (guard_discipline 3 heap2).2.2.2 4160 _ rfl

/-! ## The size of the header -/

/-- C20, evaluated: under LP64 the struct member of `union header` takes 24
bytes and the 16-byte `char` stub does not enlarge it, so `sizeof(header_t)`
is 24, which leaves remainder 8 modulo 16; on the empty heap with the break
at the 16-byte aligned address 4096, `malloc(16)` places the header at 4096
and returns 4120, which is not 16-byte aligned. -/
theorem header_size_is_not_a_multiple_of_16 :
    struct_size header_struct_members = 24 ∧
      union_size header_union_members = sizeof_header_t ∧
      sizeof_header_t % 16 = 8 ∧ heap0.brk % 16 = 0 ∧
      (malloc 3 heap0 16).map (fun r => (r.1, r.1 % 16)) = some (4120, 8) := by
  decide

/-! ## The creation extent of the tail -/

theorem isList_unique {mem : Nat → header_t} :
    ∀ {l l2 : List Nat} {p : Nat}, IsList mem p l → IsList mem p l2 → l = l2
  | [], [], _, _, _ => rfl
  | [], b :: l2, p, h1, h2 => by
    have e1 : p = 0 := h1
    have e2 : p = b := h2.1
    exact absurd (e2.symm.trans e1) h2.2.1
  | a :: l, [], p, h1, h2 => by
    have e1 : p = 0 := h2
    have e2 : p = a := h1.1
    exact absurd (e2.symm.trans e1) h1.2.1
  | a :: l, b :: l2, p, h1, h2 => by
    have e : a = b := h1.1.symm.trans h2.1
    subst e
    rw [isList_unique h1.2.2 h2.2.2]

theorem tight_snoc {cap : Nat → Nat} {brk h : Nat} :
    ∀ {l : List Nat}, Tight cap brk (l ++ [h]) ↔
      (Tight cap h l ∧ h + sizeof_header_t + cap h = brk)
  | [] => by simp [Tight]
  | a :: l => by
    have ih := @tight_snoc cap brk h l
    have hh : (l ++ [h]).head?.getD brk = l.head?.getD h := by
      cases l <;> simp
    show (a + sizeof_header_t + cap a = (l ++ [h]).head?.getD brk ∧
        Tight cap brk (l ++ [h])) ↔
      ((a + sizeof_header_t + cap a = l.head?.getD h ∧ Tight cap h l) ∧
        h + sizeof_header_t + cap h = brk)
    rw [hh, ih]
    tauto

theorem tight_congr {cap cap1 : Nat → Nat} {brk : Nat} :
    ∀ {l : List Nat}, (∀ a ∈ l, cap1 a = cap a) → Tight cap brk l → Tight cap1 brk l
  | [], _, _ => trivial
  | a :: l, hc, h => by
    refine ⟨?_, tight_congr (fun b hb => hc b (List.mem_cons_of_mem a hb)) h.2⟩
    rw [hc a (List.mem_cons_self a l)]
    exact h.1

/-- In every state reached with requests below the `2 ^ 63` bound the blocks,
measured with their creation sizes, tile the heap from the first header up to
the break. -/
theorem reachableCap_tight {s : State} {live : List Nat} {cap : Nat → Nat}
    (hr : ReachableCap s live cap) : ∀ l, Inv s l → Tight cap s.brk l := by
  have h24 : sizeof_header_t = 24 := rfl
  induction hr with
  | init mem B hi hB hle hhi =>
    intro l hinv
    have e : l = [] := isList_unique hinv.list (inv_empty mem hB hle hhi).list
    rw [e]
    trivial
  | @alloc s0 live0 cap0 fuel n p s1 hr0 hsmall hm ih =>
    intro l1 hinv1
    obtain ⟨l, hinv, _, _, _⟩ := reachableCap_inv hr0
    have ht := ih l hinv
    rcases malloc_cases hinv hsmall hm with ⟨h0, e⟩ | ⟨_, h, hh, hg, hne, _, hnle, e1, e2⟩ |
      ⟨_, hg, e1, hbrk, htl, hhd, hlo, hhi, hroom, hmem⟩
    · subst e
      have hc : ¬ (p ≠ 0 ∧ get_free_block fuel s1 n = some 0) := fun hx => hx.1 h0
      rw [if_neg hc, isList_unique hinv1.list hinv.list]
      exact ht
    · have hc : ¬ (p ≠ 0 ∧ get_free_block fuel s0 n = some 0) := by
        intro hx
        rw [hg] at hx
        exact hne (Option.some.inj hx.2)
      rw [if_neg hc]
      subst e2
      have e := isList_unique hinv1.list (inv_reuse hinv hnle).list
      rw [e]
      exact ht
    · have hp0 : p ≠ 0 := by omega
      have hc : p ≠ 0 ∧ get_free_block fuel s0 n = some 0 := ⟨hp0, hg⟩
      rw [if_pos hc]
      have hlt : ∀ a ∈ l, a ≠ s0.brk := by
        intro a ha e
        have := laid_end_le hinv.laid a ha
        omega
      have e := isList_unique hinv1.list
        (inv_grow hinv hsmall hbrk htl hhd hlo hhi hroom hmem).list
      rw [e, tight_snoc]
      constructor
      · refine tight_congr ?_ ht
        intro a ha
        show (if a = s0.brk then n else cap0 a) = cap0 a
        rw [if_neg (hlt a ha)]
      · show s0.brk + sizeof_header_t + (if s0.brk = s0.brk then n else cap0 s0.brk) = s1.brk
        rw [if_pos rfl, hbrk]
  | @dealloc s0 live0 cap0 fuel p s1 hr0 hvalid hf ih =>
    intro l1 hinv1
    obtain ⟨l, hinv, hlive, _, _⟩ := reachableCap_inv hr0
    have ht := ih l hinv
    rcases hvalid with hp0 | hpl
    · subst hp0
      have h0 : free fuel s0 0 = some s0 := by simp [free]
      rw [h0] at hf
      have e : s0 = s1 := Option.some.inj hf
      subst e
      rw [isList_unique hinv1.list hinv.list]
      exact ht
    · obtain ⟨h, hh, e⟩ := hlive p hpl
      subst e
      rcases free_cases hinv hh hf with ⟨_, L, hL, hinv2, hbrk, _, _, _⟩ | ⟨_, e2⟩
      · rw [isList_unique hinv1.list hinv2.list, hbrk]
        rw [hL, tight_snoc] at ht
        exact ht.1
      · subst e2
        rw [isList_unique hinv1.list (inv_flag h hinv).list]
        exact ht

theorem heap6_reachableCap : ReachableCap heap6 [4120] cap2 :=
  ReachableCap.alloc 3 8 4120 heap6
    (ReachableCap.dealloc 3 4160 heap5
      (ReachableCap.dealloc 3 4120 heap3 heap2_reachableCap (Or.inr (by decide)) heap2_free)
      (Or.inr (by decide)) heap3_free)
    (by decide) heap5_malloc

/-- C15 (amended): in every state reached from the empty heap by valid calls
whose `malloc` requests keep header size + request below `2 ^ 63`, when the
list is not empty `tail` is its last header and header address + header size
+ the size the tail was created with equals the break.  The recorded size is
at most the creation size, so the payload end computed from the recorded size
is at most the break, and it equals the break exactly when the recorded size
is still the creation size, that is, when reuse has not reduced it. -/
theorem tail_creation_extent_ends_at_break (s : State) (live : List Nat) (cap : Nat → Nat)
    (hr : ReachableCap s live cap) :
    ∃ l, IsList s.mem s.head l ∧ s.tail = l.getLast?.getD 0 ∧
      (l ≠ [] → s.tail ∈ l ∧ s.tail + sizeof_header_t + cap s.tail = s.brk ∧
        (s.mem s.tail).size ≤ cap s.tail ∧
        s.tail + sizeof_header_t + (s.mem s.tail).size ≤ s.brk ∧
        (s.tail + sizeof_header_t + (s.mem s.tail).size = s.brk ↔
          (s.mem s.tail).size = cap s.tail)) := by
  obtain ⟨l, hinv, _, hle, _⟩ := reachableCap_inv hr
  have ht := reachableCap_tight hr l hinv
  refine ⟨l, hinv.list, hinv.tail_last, ?_⟩
  intro hne
  rcases nil_or_snoc l with hnil | ⟨L, t, hL⟩
  · exact absurd hnil hne
  · have htl := hinv.tail_last
    rw [hL] at htl
    have ht2 : s.tail = t := by simpa using htl
    have hmem : t ∈ l := by rw [hL]; simp
    rw [hL, tight_snoc] at ht
    have hcap := ht.2
    have hsz := hle t hmem
    rw [ht2]
    refine ⟨hmem, hcap, hsz, by omega, ?_⟩
    constructor
    · intro h
      omega
    · intro h
      omega

theorem tail_creation_extent_ends_at_break_witness :
    ∃ l, IsList heap6.mem heap6.head l ∧ heap6.tail = l.getLast?.getD 0 ∧
      (l ≠ [] → heap6.tail ∈ l ∧ heap6.tail + sizeof_header_t + cap2 heap6.tail = heap6.brk ∧
        (heap6.mem heap6.tail).size ≤ cap2 heap6.tail ∧
        heap6.tail + sizeof_header_t + (heap6.mem heap6.tail).size ≤ heap6.brk ∧
        (heap6.tail + sizeof_header_t + (heap6.mem heap6.tail).size = heap6.brk ↔
          (heap6.mem heap6.tail).size = cap2 heap6.tail)) :=
  tail_creation_extent_ends_at_break heap6 [4120] cap2 heap6_reachableCap

/-! ## Requests of `2 ^ 63` bytes or more -/

theorem reachableAny_of_reachable {s : State} {live : List Nat} (hr : Reachable s live) :
    ReachableAny s live := by
  induction hr with
  | init mem B hi hB hle hhi => exact ReachableAny.init mem B hi hB hle hhi
  | alloc fuel n p s1 _ hsmall hm ih =>
    exact ReachableAny.alloc fuel n p s1 ih (by omega) hm
  | dealloc fuel p s1 _ hvalid hf ih => exact ReachableAny.dealloc fuel p s1 ih hvalid hf

theorem heap6_malloc_huge : malloc 3 heap6 (2 ^ 64 - 32) = some (4160, heap7) := rfl

theorem heap7_free : free 3 heap7 4120 = some heap8 := rfl

theorem heap6_reachableAny : ReachableAny heap6 [4120] :=
  reachableAny_of_reachable heap6_reachable

theorem heap7_reachableAny : ReachableAny heap7 [4160, 4120] :=
  ReachableAny.alloc 3 (2 ^ 64 - 32) 4160 heap7 heap6_reachableAny (by decide)
    heap6_malloc_huge

/-- C15 as stated fails: (1) after `malloc(16)`, `malloc(32)`, `free(4120)`,
`free(4160)` and `malloc(8)`, all within the `2 ^ 63` bound, the list holds
the single header 4096, which is the tail; it records size 8, so its payload
ends at 4128, while the break is at 4136; (2) after a further
`malloc(2 ^ 64 - 32)`, whose increment `sbrk` reads as `-8`, the tail is the
new header 4136, which still records the size it was created with, and its
payload end is far above the break 4128. -/
theorem tail_ends_below_break_after_reuse :
    (Reachable heap6 [4120] ∧ IsList heap6.mem heap6.head [4096] ∧ heap6.tail = 4096 ∧
      heap6.tail + sizeof_header_t + (heap6.mem heap6.tail).size = 4128 ∧
      heap6.brk = 4136 ∧
      heap6.tail + sizeof_header_t + (heap6.mem heap6.tail).size ≠ heap6.brk) ∧
    (ReachableAny heap7 [4160, 4120] ∧ IsList heap7.mem heap7.head [4096, 4136] ∧
      heap7.tail = 4136 ∧ (heap7.mem heap7.tail).size = 2 ^ 64 - 32 ∧ heap7.brk = 4128 ∧
      heap7.tail + sizeof_header_t + (heap7.mem heap7.tail).size ≠ heap7.brk) :=
  ⟨⟨heap6_reachable, ⟨rfl, by decide, rfl⟩, rfl, by decide, rfl, by decide⟩,
    ⟨heap7_reachableAny, ⟨rfl, by decide, rfl, by decide, rfl⟩, rfl, by decide, rfl,
      by decide⟩⟩

/-- C9 as stated fails: after `malloc(16)`, `malloc(32)`, `free(4120)`,
`free(4160)`, `malloc(8)` (4120 again) and `malloc(2 ^ 64 - 32)` (4160, the
break lowered to 4128) the pointers 4160 and 4120 are live and the block of
4120, which records size 8, ends at the break.  `free(4120)` takes the
reclamation branch and lowers the break by 24 + 8, but its loop unlinks
`tail`, the header 4136 of the live pointer 4160: the freed header 4096 is
still the head and the only element of the list. -/
theorem free_heap_top_unlinks_other_header :
    ReachableAny heap7 [4160, 4120] ∧ 4120 ∈ [4160, 4120] ∧
      4120 + (heap7.mem (4120 - sizeof_header_t)).size = heap7.brk ∧
      IsList heap7.mem heap7.head [4096, 4136] ∧
      free 3 heap7 4120 = some heap8 ∧
      heap8.brk + (sizeof_header_t + (heap7.mem (4120 - sizeof_header_t)).size) = heap7.brk ∧
      IsList heap8.mem heap8.head [4096] ∧ 4120 - sizeof_header_t ∈ [4096] ∧
      4160 - sizeof_header_t ∉ [4096] :=
  ⟨heap7_reachableAny, by decide, by decide, ⟨rfl, by decide, rfl, by decide, rfl⟩,
    heap7_free, by decide, ⟨rfl, by decide, rfl⟩, by decide, by decide⟩

/-- C13 as stated fails: in the state after `malloc(16)`, `malloc(32)`,
`free(4120)`, `free(4160)` and `malloc(8)`, the call `malloc(2 ^ 64 - 32)`
returns the non-null pointer 4160 while lowering the break to 4128: the
region `[4160, 4160 + n)` does not end at or before the break, and the tail
header 4136, which records `2 ^ 64 - 32`, ends far above the break. -/
theorem huge_block_ends_above_break :
    ReachableAny heap6 [4120] ∧ malloc 3 heap6 (2 ^ 64 - 32) = some (4160, heap7) ∧
      ReachableAny heap7 [4160, 4120] ∧ IsList heap7.mem heap7.head [4096, 4136] ∧
      heap7.brk = 4128 ∧ ¬ (4160 + (2 ^ 64 - 32) ≤ heap7.brk) ∧
      ¬ (4136 + sizeof_header_t + (heap7.mem 4136).size ≤ heap7.brk) :=
  ⟨heap6_reachableAny, heap6_malloc_huge, heap7_reachableAny,
    ⟨rfl, by decide, rfl, by decide, rfl⟩, rfl, by decide, by decide⟩

/-- C17: there is a sequence of valid calls from the empty heap at 4096 after
which `free` takes the heap-top reclamation branch on a block whose recorded
size was reduced by reuse.  `malloc(16)` creates the header 4096 with size 16
(the scan misses, the heap grows) and returns 4120; after `malloc(32)`,
`free(4120)` and `free(4160)`, `malloc(8)` reuses that header (the scan hits
4096) and records 8; `malloc(2 ^ 64 - 32)` then lowers the break to 4128.
Now 4120 is live, its block records 8 < 16 and ends at the break, and
`free(4120)` lowers the break by header size + 8 = 32, not by the 40 bytes of
the block as created. -/
theorem shrink_by_reduced_recorded_size :
    get_free_block 3 heap0 16 = some 0 ∧ malloc 3 heap0 16 = some (4120, heap1) ∧
      (heap1.mem (4120 - sizeof_header_t)).size = 16 ∧
      malloc 3 heap1 32 = some (4160, heap2) ∧ free 3 heap2 4120 = some heap3 ∧
      free 3 heap3 4160 = some heap5 ∧
      get_free_block 3 heap5 8 = some (4120 - sizeof_header_t) ∧
      malloc 3 heap5 8 = some (4120, heap6) ∧
      malloc 3 heap6 (2 ^ 64 - 32) = some (4160, heap7) ∧
      ReachableAny heap7 [4160, 4120] ∧ 4120 ∈ [4160, 4120] ∧
      (heap7.mem (4120 - sizeof_header_t)).size = 8 ∧
      (4120 + (heap7.mem (4120 - sizeof_header_t)).size) % 2 ^ 64 = heap7.brk ∧
      free 3 heap7 4120 = some heap8 ∧
      heap8.brk + (sizeof_header_t + 8) = heap7.brk ∧
      sizeof_header_t + 8 < sizeof_header_t + 16 :=
  ⟨by decide, heap0_malloc, by decide, heap1_malloc, heap2_free, heap3_free, by decide,
    heap5_malloc, heap6_malloc_huge, heap7_reachableAny, by decide, by decide, by decide,
    heap7_free, by decide, by decide⟩

end MemAlloc
